import Mathlib

/-!
Verification development for the HRP-CVaR data pipeline (`MAIN.py`).

The pipeline's pandas objects are shallowly embedded:

* a cell of a Series/DataFrame is a `Cell` — either missing (`na`, pandas
  `NaN`), a finite rational (`num q`, standing for the float value), or a
  signed infinity (`pinf`/`ninf`), with arithmetic following numpy's
  conventions for the operations the script performs;
* a Series is a list of `(date, Cell)` pairs, dates being naturals;
* a DataFrame is a list of `(date, row)` pairs (`PFrame`).

Every definition mirrors a concrete construct of `MAIN.py` (or of the
libraries it calls, for the exact call made); theorem statements compare
them with the specified behaviour.
-/

/-- Value held by one cell of a pandas Series/DataFrame: missing (`NaN`),
a finite number, or a signed infinity. -/
inductive Cell where
  | na   : Cell
  | num  : Rat → Cell
  | pinf : Cell
  | ninf : Cell
deriving DecidableEq

namespace Cell

/-- Subtraction of cells, following numpy float semantics
(`NaN` propagates, `inf - inf = NaN`). -/
def csub : Cell → Cell → Cell
  | na, _ => na
  | _, na => na
  | num a, num b => num (a - b)
  | num _, pinf => ninf
  | num _, ninf => pinf
  | pinf, num _ => pinf
  | ninf, num _ => ninf
  | pinf, pinf => na
  | pinf, ninf => pinf
  | ninf, pinf => ninf
  | ninf, ninf => na

/-- Division of cells, following numpy float semantics
(`0/0 = NaN`, `a/0 = ±inf` for `a ≠ 0`, `a/inf = 0`, `inf/inf = NaN`). -/
def cdiv : Cell → Cell → Cell
  | na, _ => na
  | _, na => na
  | num a, num b =>
      if b = 0 then (if a = 0 then na else if 0 < a then pinf else ninf)
      else num (a / b)
  | num _, pinf => num 0
  | num _, ninf => num 0
  | pinf, num b => if 0 ≤ b then pinf else ninf
  | ninf, num b => if 0 ≤ b then ninf else pinf
  | pinf, pinf => na
  | pinf, ninf => na
  | ninf, pinf => na
  | ninf, ninf => na

/-- One step of `pct_change`: `cur / prev - 1` (pandas computes
`df / df.shift() - 1`). -/
def cpct (prev cur : Cell) : Cell := csub (cdiv cur prev) (num 1)

/-- Whether a cell is a finite number. -/
def isNum : Cell → Bool
  | num _ => true
  | _ => false

/-- Whether a cell is a finite nonzero number. -/
def isNZ : Cell → Bool
  | num q => decide (q ≠ 0)
  | _ => false

end Cell

open Cell

/-- A date-indexed pandas Series: list of `(date, value)` pairs. -/
abbrev PSeries := List (Nat × Cell)

/-- First value stored under a date (`Series.loc[d]`; series used with a
unique index). -/
def slookup (s : PSeries) (d : Nat) : Option Cell :=
  (s.find? (fun r => r.1 = d)).map (·.2)

/-- Label-based restriction `s.loc[I]` of a Series to an index list.
In the script every restriction happens with `I` contained in the
series' index, so dropping absent labels is unobservable. -/
def sloc (s : PSeries) (I : List Nat) : PSeries :=
  I.filterMap (fun d => (slookup s d).map (fun c => (d, c)))

/-- Helper for `pct_change` on a Series: walks the list carrying the
previous (forward-filled) value; emits `cur/prev - 1` at each position. -/
def pctAux (prev : Cell) : PSeries → PSeries
  | [] => []
  | (d, c) :: t =>
      let cur := if c = Cell.na then prev else c
      (d, cpct prev cur) :: pctAux cur t

/-- A Series' `pct_change()` with the default `fill_method='pad'`:
missing entries are forward-filled before differencing, and the first
entry becomes `NaN`. -/
def pct_change (s : PSeries) : PSeries := pctAux Cell.na s

/-- A Series' `bfill()`: each missing entry takes the next valid value
below it (missing if none exists). -/
def bfill : PSeries → PSeries
  | [] => []
  | (d, c) :: t =>
      (d, if c = Cell.na then ((t.map (·.2)).find? (fun x => x ≠ Cell.na)).getD Cell.na
          else c) :: bfill t

/-- The market-cap-change target column as the script builds it
(line 419): `market_cap.loc[combined.index].pct_change().bfill()` —
restrict first, then difference, then backward-fill.  The exchange-rate
column (line 420) is the same combinator applied to the other series. -/
def mcapColCode (m : PSeries) (I : List Nat) : PSeries :=
  bfill (pct_change (sloc m I))

/-- Modelled from the spec: the market-cap percentage-change column as the
specification describes it — `pct_change` computed on the *original
unrestricted* series, only then restricted to the aligned index, with the
leading gap backward-filled.  Stated only to compare with `mcapColCode`;
the script does not implement this. -/
def mcapColSpec (m : PSeries) (I : List Nat) : PSeries :=
  bfill (sloc (pct_change m) I)

/-- Expected value list for restrict-then-difference on an all-numeric,
nonvanishing series: successive ratios minus one along the restricted
index, dates paired back in. -/
def chainAux (f : Nat → Rat) (prev : Nat) : List Nat → PSeries
  | [] => []
  | d :: t => (d, Cell.num (f d / f prev - 1)) :: chainAux f d t

/-- Expected market-cap-change column: entry `i ≥ 1` is
`f I_i / f I_(i-1) - 1`, and the leading entry is back-filled with the
entry at position 1 (missing when the index is a singleton). -/
def expectedMcapCol (f : Nat → Rat) : List Nat → PSeries
  | [] => []
  | [d] => [(d, Cell.na)]
  | d0 :: d1 :: t => (d0, Cell.num (f d1 / f d0 - 1)) :: chainAux f d0 (d1 :: t)

/-- A date-indexed pandas DataFrame: list of `(date, row)` pairs. -/
structure PFrame where
  rows : List (Nat × List Cell)
deriving DecidableEq

namespace PFrame

/-- The frame's date index. -/
def index (f : PFrame) : List Nat := f.rows.map (·.1)

/-- First row stored under a date (`DataFrame.loc[d]`; frames used with a
unique index). -/
def lookupRow (f : PFrame) (d : Nat) : Option (List Cell) :=
  (f.rows.find? (fun r => r.1 = d)).map (·.2)

/-- Label-based restriction `f.loc[I]` to an index list (used with `I`
contained in the frame's index). -/
def loc (f : PFrame) (I : List Nat) : PFrame :=
  ⟨I.filterMap (fun d => (f.lookupRow d).map (fun r => (d, r)))⟩

/-- The frame's `dropna()`: keep only rows with no missing cell. -/
def dropna (f : PFrame) : PFrame :=
  ⟨f.rows.filter (fun r => r.2.all (fun c => c ≠ Cell.na))⟩

/-- Helper for columnwise `pct_change` on a frame: carries the previous
forward-filled row and differences against it elementwise. -/
def pctRows (prev : List Cell) : List (Nat × List Cell) → List (Nat × List Cell)
  | [] => []
  | (d, r) :: t =>
      let filled := List.zipWith (fun p c => if c = Cell.na then p else c) prev r
      (d, List.zipWith cpct prev filled) :: pctRows filled t

/-- A frame's `pct_change()` (default `fill_method='pad'`): every column
is differenced as a Series is; the first row becomes `NaN`. -/
def pct_change (f : PFrame) : PFrame :=
  ⟨pctRows (List.replicate ((f.rows.head?.map (·.2.length)).getD 0) Cell.na) f.rows⟩

/-- Whether the frame has no rows (`DataFrame.empty`). -/
def isEmpty (f : PFrame) : Bool := f.rows.isEmpty

end PFrame

/-- A one-column frame made from a Series (how `pd.concat` treats a
Series operand). -/
def toFrame (s : PSeries) : PFrame := ⟨s.map (fun r => (r.1, [r.2]))⟩

/-- The row a date contributes to the concatenated table: the cells of
every dataset's row at that date, in dataset order (`pd.concat(..., axis=1)`
over frames sharing the index). -/
def concatRow (dfs : List PFrame) (d : Nat) : List Cell :=
  (dfs.map (fun df => (df.lookupRow d).getD [])).flatten

/-- Intersection of all the date indices, folded left as the script does
(`common_dates = datasets[0].index; for df in datasets[1:]: ... .intersection`). -/
def commonDates (dfs : List PFrame) : List Nat :=
  match dfs with
  | [] => []
  | d0 :: rest => rest.foldl (fun acc df => acc.filter (fun d => d ∈ df.index)) d0.index

/-- `Preprocessor.align_datasets` (lines 328–373): intersect all date
indices; if the intersection is empty return an empty frame; otherwise
restrict every dataset to the common dates, concatenate along columns and
drop rows still containing a missing value. -/
def align_datasets (dfs : List PFrame) : PFrame :=
  let common := commonDates dfs
  if common.isEmpty then ⟨[]⟩
  else (PFrame.dropna ⟨common.map (fun d => (d, concatRow dfs d))⟩)

/-- `Preprocessor.calculate_returns` (lines 305–326):
`prices.pct_change().dropna()`. -/
def calculate_returns (p : PFrame) : PFrame :=
  PFrame.dropna (PFrame.pct_change p)

/-- The aligned frame the script builds in `process_data` (line 404):
stock returns plus the four external series, aligned. -/
def alignedOf (prices : PFrame) (mkt rf mcap usd : PSeries) : PFrame :=
  align_datasets
    [calculate_returns prices, toFrame mkt, toFrame rf, toFrame mcap, toFrame usd]

/-- The excess-return target column (line 418):
`market_returns.loc[I] - risk_free_rate.loc[I]` (label-aligned
subtraction of two Series sharing the index `I`). -/
def yExcess (mkt rf : PSeries) (I : List Nat) : PSeries :=
  (sloc mkt I).map (fun r => (r.1, csub r.2 ((slookup (sloc rf I) r.1).getD Cell.na)))

/-- The target frame `y` (lines 417–427): three columns over the aligned
index — excess return, market-cap change, exchange-rate change — with
rows containing a missing value dropped. -/
def targetsOf (mkt rf mcap usd : PSeries) (I : List Nat) : PFrame :=
  PFrame.dropna ⟨I.map (fun d => (d,
    [ (slookup (yExcess mkt rf I) d).getD Cell.na,
      (slookup (mcapColCode mcap I) d).getD Cell.na,
      (slookup (mcapColCode usd I) d).getD Cell.na ]))⟩

/-- The feature matrix re-intersected with the final target index
(lines 417 and 430): `X = stock_returns.loc[combined.index]` then
`combined_final = X.loc[y.index]`. -/
def finalXOf (prices : PFrame) (mkt rf mcap usd : PSeries) : PFrame :=
  let I := (alignedOf prices mkt rf mcap usd).index
  (((calculate_returns prices).loc I)).loc (targetsOf mkt rf mcap usd I).index

/-- Sizes produced by scikit-learn's
`train_test_split(..., test_size=0.33, shuffle=False)`: the test side is
`ceil(0.33 * n)` (the fraction modelled by the rational `33/100`), the
train side the rest; scikit-learn raises — caught by the caller's
`except`, hence `none` — when either side would be empty. -/
def train_test_split_sizes (n : Nat) : Option (Nat × Nat) :=
  let nTest := (33 * n + 99) / 100
  let nTrain := n - nTest
  if nTrain = 0 ∨ nTest = 0 then none else some (nTrain, nTest)

/-- The split step of `process_data` (lines 430–440): check
`combined_final` for emptiness, then `train_test_split` both frames
(scikit-learn first validates that they have consistently many rows);
`shuffle=False` makes the split a strict prefix/suffix partition. -/
def splitStep (Xf y : PFrame) : Option (PFrame × PFrame × PFrame × PFrame) :=
  if Xf.isEmpty then none
  else if Xf.rows.length ≠ y.rows.length then none
  else match train_test_split_sizes Xf.rows.length with
    | none => none
    | some (nTr, _) =>
        some (⟨Xf.rows.take nTr⟩, ⟨Xf.rows.drop nTr⟩,
              ⟨y.rows.take nTr⟩, ⟨y.rows.drop nTr⟩)

/-- `Preprocessor.process_data` (lines 375–443): returns, alignment,
feature/target construction, chronological split.  `none` models the
`(None, None, None, None)` failure tuple. -/
def process_data (prices : PFrame) (mkt rf mcap usd : PSeries) :
    Option (PFrame × PFrame × PFrame × PFrame) :=
  if (alignedOf prices mkt rf mcap usd).isEmpty then none
  else
    splitStep (finalXOf prices mkt rf mcap usd)
      (targetsOf mkt rf mcap usd (alignedOf prices mkt rf mcap usd).index)

/-- Stable insertion of a dated record into a date-sorted list (used to
model `sort_values('date')`/`sort_index()`, whose tie order we fix as
stable). -/
def insByDate {α : Type} (x : Nat × α) : List (Nat × α) → List (Nat × α)
  | [] => [x]
  | y :: t => if x.1 < y.1 then x :: y :: t else y :: insByDate x t

/-- Sort a dated list ascending by date (stable). -/
def sortByDate {α : Type} (l : List (Nat × α)) : List (Nat × α) :=
  l.foldl (fun acc x => insByDate x acc) []

/-- De-duplicate a dated list keeping the first occurrence of each date
(`drop_duplicates(subset='date')`, default `keep='first'`). -/
def dedupByDate {α : Type} (l : List (Nat × α)) : List (Nat × α) :=
  l.foldl (fun acc x => if acc.any (fun y => y.1 = x.1) then acc else acc ++ [x]) []

/-- `DataFetcher.fetch_daily_history` (lines 58–114), with the remote
call and per-row date conversion already performed: the argument is the
outcome of the awaited API interaction (`error` when it raised), each
retained row carrying its converted date (`none` for an unconvertible
one, pandas `NaT`) and its `close` cell (`na` when `to_numeric` fails to
parse it).  The body drops dateless rows, sorts, de-duplicates by date,
and drops rows whose `close` is missing; any raised error yields the
empty frame. -/
def fetch_daily_history (res : Except String (List (Option Nat × Cell))) : PSeries :=
  match res with
  | .error _ => []
  | .ok rows =>
      let s1 : PSeries := rows.filterMap (fun r => r.1.map (fun d => (d, r.2)))
      let s3 := dedupByDate (sortByDate s1)
      s3.filter (fun r => r.2 ≠ Cell.na)

/-- The inner merge on `date` of an accumulated multi-column price table
with one further symbol's series (`prices.merge(df, on='date',
how='inner')`; left row order kept, matching pandas). -/
def mergeInner (acc : PFrame) (s : PSeries) : PFrame :=
  ⟨acc.rows.filterMap (fun r => (slookup s r.1).map (fun c => (r.1, r.2 ++ [c])))⟩

/-- The combined-price loop of `main` (lines 677–684): fold over the
fetched series, skipping empty ones; a non-empty series either seeds the
table — the code tests `prices.empty`, which is also true again whenever
an intermediate inner merge produced zero rows — or is inner-merged in. -/
def combine_prices (dfs : List PSeries) : PFrame :=
  dfs.foldl (fun prices df =>
    if df.isEmpty then prices
    else if prices.isEmpty then ⟨df.map (fun r => (r.1, [r.2]))⟩
    else mergeInner prices df) ⟨[]⟩

/-- Set intersection of the date indices of the non-empty fetched
series (what the specification says `combine_prices` computes). -/
def interNonEmpty (dfs : List PSeries) : List Nat :=
  match dfs.filter (fun d => ¬ d.isEmpty) with
  | [] => []
  | d0 :: rest =>
      rest.foldl (fun acc df => acc.filter (fun d => d ∈ df.map (·.1))) (d0.map (·.1))

/-- Insert-or-update into an association list: Python `dict` assignment —
the key keeps its original position, the value is overwritten. -/
def upsertD {α : Type} : List (String × α) → String → α → List (String × α)
  | [], k, v => [(k, v)]
  | (k', v') :: t, k, v =>
      if k' = k then (k, v) :: t else (k', v') :: upsertD t k v

/-- `dict(zip(symbol_ids, results))` in `fetch_all_symbols` (line 133):
pairs folded into a dict, later duplicate keys overwriting earlier
values. -/
def dict_zip {α : Type} (ids : List String) (rs : List α) : List (String × α) :=
  (ids.zip rs).foldl (fun acc p => upsertD acc p.1 p.2) []

/-- Lookup in the association-list dict. -/
def dlookup {α : Type} (d : List (String × α)) (k : String) : Option α :=
  (d.find? (fun r => r.1 = k)).map (·.2)

/-- Number of columns of a frame (greatest row width). -/
def ncolsF (f : PFrame) : Nat := (f.rows.map (·.2.length)).foldr Nat.max 0

/-- Observable outcome of a `main` run in the model: process termination
with an exit status, or completion with the split. -/
inductive MainResult where
  | exited (code : Nat)
  | completed (split : PFrame × PFrame × PFrame × PFrame)
deriving DecidableEq

/-- The guard sequence of `main` (lines 649–729) from the loaded files
onward: a failed load (`None` marker, from `load_multiple_files`'s
`sys.exit(1)`), an empty combined price table, or a failed
`process_data` each terminate the process with exit status 1; otherwise
the run proceeds with the split. -/
def main_driver (market rfr mcap usd : Option PSeries) (fetched : List PSeries) :
    MainResult :=
  match market, rfr, mcap, usd with
  | some m, some r, some c, some u =>
      let prices := combine_prices fetched
      if prices.isEmpty then .exited 1
      else match process_data ⟨sortByDate prices.rows⟩ m r c u with
        | none => .exited 1
        | some s => .completed s
  | _, _, _, _ => .exited 1

/-- ASCII word character: letter, digit or underscore (the character
class the library's normalisation keeps). -/
def isWordChar (c : Char) : Bool := c.isAlphanum || c = '_'

/-- The fuzzy library's `full_process` with `force_ascii=True`: drop
non-ASCII characters, replace every non-word character by a space,
lowercase.  (The final strip only affects outer whitespace, which the
subsequent tokenisation discards anyway.) -/
def fullProcess (s : String) : List Char :=
  (s.data.filter (fun c => c.toNat < 128)).map
    (fun c => if isWordChar c then c.toLower else ' ')

/-- Split a processed character list on whitespace runs (Python
`str.split()`), accumulating the current token reversed. -/
def splitAux (cur : List Char) : List Char → List (List Char)
  | [] => if cur = [] then [] else [cur.reverse]
  | c :: t =>
      if c = ' ' then (if cur = [] then splitAux [] t else cur.reverse :: splitAux [] t)
      else splitAux (c :: cur) t

/-- Tokens of a processed string. -/
def splitTokens (cs : List Char) : List (List Char) := splitAux [] cs

/-- Lexicographic strict order on character lists by code point (Python
string `<`). -/
def lexLt : List Char → List Char → Bool
  | [], [] => false
  | [], _ :: _ => true
  | _ :: _, [] => false
  | a :: as, b :: bs =>
      if a.toNat < b.toNat then true
      else if b.toNat < a.toNat then false
      else lexLt as bs

/-- Stable insertion into a lexicographically sorted token list. -/
def insTok (x : List Char) : List (List Char) → List (List Char)
  | [] => [x]
  | y :: t => if lexLt x y then x :: y :: t else y :: insTok x t

/-- Sort tokens lexicographically (Python `sorted`). -/
def sortToks (l : List (List Char)) : List (List Char) :=
  l.foldl (fun acc x => insTok x acc) []

/-- Join tokens with single spaces. -/
def joinToks : List (List Char) → List Char
  | [] => []
  | [t] => t
  | t :: ts => t ++ ' ' :: joinToks ts

/-- The library's `_process_and_sort`: full-process, tokenize, sort the
tokens, join with spaces. -/
def procSort (s : String) : List Char := joinToks (sortToks (splitTokens (fullProcess s)))

/-- One dynamic-programming row of difflib's `find_longest_match`:
entry `j` is the length of the common block ending at `(i, j)`. -/
def newRow (ai : Char) (b : List Char) (blo bhi : Nat) (prev : List Nat) : List Nat :=
  (List.range b.length).map (fun j =>
    if blo ≤ j ∧ j < bhi ∧ b.get? j = some ai then
      (if j = 0 then 0 else prev.getD (j - 1) 0) + 1
    else 0)

/-- Fold a DP row into the running best block `(i0, j0, size)`,
updating only on strict improvement (difflib's tie-break: lowest `i`,
then lowest `j`). -/
def bestOfRow (i : Nat) (row : List Nat) (best : Nat × Nat × Nat) : Nat × Nat × Nat :=
  (List.range row.length).foldl (fun best j =>
    let k := row.getD j 0
    if best.2.2 < k then (i + 1 - k, j + 1 - k, k) else best) best

/-- difflib `SequenceMatcher.find_longest_match` on the region
`a[alo:ahi] × b[blo:bhi]`, with no junk (the autojunk heuristic only
fires for sequences of length ≥ 200, longer than any label scored
here). -/
def flm (a b : List Char) (alo ahi blo bhi : Nat) : Nat × Nat × Nat :=
  ((List.range' alo (ahi - alo)).foldl (fun st i =>
      let row := newRow (a.getD i ' ') b blo bhi st.1
      (row, bestOfRow i row st.2))
    (List.replicate b.length 0, (alo, blo, 0))).2

/-- Total size of difflib's matching blocks: recursively split around
each longest match.  The fuel (sum of the region extents strictly
decreases) makes the recursion structural. -/
def mtot (fuel : Nat) (a b : List Char) (alo ahi blo bhi : Nat) : Nat :=
  match fuel with
  | 0 => 0
  | fuel + 1 =>
      let t := flm a b alo ahi blo bhi
      if t.2.2 = 0 then 0
      else
        mtot fuel a b alo t.1 blo t.2.1 + t.2.2 +
          mtot fuel a b (t.1 + t.2.2) ahi (t.2.1 + t.2.2) bhi

/-- Python `int(round(num/den))`: round half to even. -/
def intr (num den : Nat) : Nat :=
  let q := num / den
  let r := num % den
  if 2 * r < den then q
  else if den < 2 * r then q + 1
  else if q % 2 = 0 then q else q + 1

/-- difflib ratio scaled to 0–100: `round(100 * 2M / (|a| + |b|))`
(both empty gives 100, as `SequenceMatcher.ratio` returns 1.0). -/
def matcherScore (a b : List Char) : Nat :=
  let t := a.length + b.length
  if t = 0 then 100
  else intr (200 * mtot t a b 0 a.length 0 b.length) t

/-- `fuzz.token_sort_ratio`: process-and-sort both strings, then the
matcher ratio. -/
def token_sort_score (q c : String) : Nat := matcherScore (procSort q) (procSort c)

/-- `process.extractOne(query, choices, scorer=fuzz.token_sort_ratio)`:
best-scoring choice, first one kept on ties (Python `max`); `none` only
for an empty choice list. -/
def extractOne (q : String) (choices : List String) : Option (String × Nat) :=
  match choices with
  | [] => none
  | c :: t =>
      some (t.foldl (fun best c' =>
        let s := token_sort_score q c'
        if best.2 < s then (c', s) else best) (c, token_sort_score q c))

/-- Whitespace for Python `str.strip()` (the ASCII whitespace class;
labels scored here are ASCII or stripped by `force_ascii` anyway). -/
def isPyWS (c : Char) : Bool :=
  c = ' ' ∨ c = '\t' ∨ c = '\n' ∨ c = '\r' ∨ c = '\x0b' ∨ c = '\x0c'

/-- Python `col.strip().lower()`: strip whitespace from both ends, then
lowercase every character. -/
def normKey (s : String) : String :=
  ⟨(((s.data.dropWhile isPyWS).reverse.dropWhile isPyWS).reverse).map Char.toLower⟩

/-- The `normalized_columns` dict of `load_data` (line 217): normalized
label to original label, a later duplicate normalized label overwriting
the earlier original. -/
def normCols (cols : List String) : List (String × String) :=
  cols.foldl (fun acc c => upsertD acc (normKey c) c) []

/-- One iteration of the alias loop (lines 231–240): fuzzy-match the
normalized alias against all labels; keep the new pair only on a strict
improvement that also reaches the 80 threshold. -/
def aliasStep (nc : List (String × String)) (b : Option String × Nat)
    (a : String) : Option String × Nat :=
  match extractOne (normKey a) (nc.map (·.1)) with
  | none => b
  | some (m, s) => if b.2 < s ∧ 80 ≤ s then ((dlookup nc m), s) else b

/-- Column resolution for one semantic field (lines 220–246): fuzzy-match
the field name itself against the normalized labels and accept at score
≥ 80; otherwise fuzzy-match every alias, keeping the strictly best pair
scoring ≥ 80; otherwise fail.  Returns the chosen original label and the
accepted score. -/
def resolveField (field : String) (aliases : List String)
    (nc : List (String × String)) : Option (String × Nat) :=
  match extractOne field (nc.map (·.1)) with
  | none => none
  | some (bm, sc) =>
    if 80 ≤ sc then some ((dlookup nc bm).getD "", sc)
    else
      match (aliases.foldl (aliasStep nc) ((none : Option String), 0)).1 with
      | some c => some (c, (aliases.foldl (aliasStep nc) ((none : Option String), 0)).2)
      | none => none

/-- The resolution loop over all required fields of a file type
(lines 220–246): the first unresolved field fails the whole load
(`return pd.DataFrame()` — no partial schema). -/
def resolve_all (required : List (String × List String))
    (nc : List (String × String)) : Option (List (String × String)) :=
  required.foldl (fun acc f =>
    match acc with
    | none => none
    | some m =>
        match resolveField f.1 f.2 nc with
        | none => none
        | some r => some (m ++ [(f.1, r.1)])) (some [])

/-- Row processing of `load_data` after column renaming (lines 252–267),
cells given as parse results (`none` = `to_datetime`/`to_numeric`
coercion failure): drop rows with unparseable dates, sort by date,
de-duplicate keeping the first occurrence, and only then drop rows whose
value cell fails to parse. -/
def load_process_code (t : List (Option Nat × Option Rat)) : List (Nat × Rat) :=
  let s1 := t.filterMap (fun r => r.1.map (fun d => (d, r.2)))
  let s3 := dedupByDate (sortByDate s1)
  s3.filterMap (fun r => r.2.map (fun v => (r.1, v)))

/-- Modelled from the claim's reading of the spec: rows where either
field fails to parse are dropped first, and only then is the table
sorted and date-de-duplicated.  Stated to compare with
`load_process_code`; the script coerces the value column only after
de-duplication. -/
def load_process_claim (t : List (Option Nat × Option Rat)) : List (Nat × Rat) :=
  let s1 := t.filterMap (fun r =>
    match r with
    | (some d, some v) => some (d, v)
    | _ => none)
  dedupByDate (sortByDate s1)

/-- `DataLoader.load_data` (lines 141–272) at component granularity: the
argument is the outcome of the dialog/file read (`error` when any of it
raised), carrying the observed column labels and the parsed table; the
body resolves the schema and processes the rows; failures yield the
`none`/empty marker, never an uncaught signal. -/
def load_data_outcome
    (res : Except String (List String × List (Option Nat × Option Rat)))
    (required : List (String × List String)) : Option (List (Nat × Rat)) :=
  match res with
  | .error _ => none
  | .ok (cols, table) =>
      match resolve_all required (normCols cols) with
      | none => none
      | some _ => some (load_process_code table)

/-- Alias table for the `date` field (lines 197, 202, 207, 212). -/
def dateAliases : List String := ["date", "Date", "Gregorian Date", "تاریخ میلادی"]

/-- Alias table for the `market_cap` field (line 208). -/
def marketCapAliases : List String :=
  ["market_cap", "Market Cap", "Market Capitalization", "بازار سرمایه", "price"]

section C1Lemmas

/-- Restriction of a series that holds `num (f d)` under every requested
date is the literal list of those values. -/
lemma sloc_of_num (m : PSeries) (f : Nat → Rat) :
    ∀ I : List Nat, (∀ d ∈ I, slookup m d = some (Cell.num (f d))) →
      sloc m I = I.map (fun d => (d, Cell.num (f d))) := by
  intro I
  induction I with
  | nil => intro _; rfl
  | cons d t ih =>
      intro h
      simp only [sloc, List.filterMap_cons, h d (List.mem_cons_self d t),
        Option.map_some', List.map_cons]
      exact congrArg _ (ih (fun d' hd' => h d' (List.mem_cons_of_mem _ hd')))

/-- Differencing an all-numeric tail against a nonzero numeric carry
produces exactly the chain of successive ratios minus one. -/
lemma pctAux_num (f : Nat → Rat) :
    ∀ (t : List Nat) (p : Nat), f p ≠ 0 → (∀ d ∈ t, f d ≠ 0) →
      pctAux (Cell.num (f p)) (t.map (fun d => (d, Cell.num (f d)))) = chainAux f p t := by
  intro t
  induction t with
  | nil => intros; rfl
  | cons d t' ih =>
      intro p hp hall
      simp only [List.map_cons, pctAux, chainAux, cpct, Cell.cdiv, Cell.csub,
        if_neg hp, reduceCtorEq, if_false]
      exact congrArg _ (ih d (hall d (List.mem_cons_self d t'))
        (fun d' hd' => hall d' (List.mem_cons_of_mem _ hd')))

/-- Every value of a ratio chain is a finite number. -/
lemma chainAux_vals (f : Nat → Rat) :
    ∀ (t : List Nat) (p : Nat) (r : Nat × Cell), r ∈ chainAux f p t → r.2.isNum = true := by
  intro t
  induction t with
  | nil => intro p r hr; cases hr
  | cons d t' ih =>
      intro p r hr
      rcases List.mem_cons.mp hr with h | h
      · subst h; rfl
      · exact ih d r h

/-- Backward fill leaves a series with no missing values unchanged. -/
lemma bfill_no_na : ∀ l : PSeries, (∀ r ∈ l, r.2 ≠ Cell.na) → bfill l = l := by
  intro l
  induction l with
  | nil => intro _; rfl
  | cons x t ih =>
      intro h
      obtain ⟨d, c⟩ := x
      simp only [bfill, if_neg (h (d, c) (List.mem_cons_self _ t))]
      exact congrArg _ (ih (fun r hr => h r (List.mem_cons_of_mem _ hr)))

/-- On an aligned index whose dates all carry finite nonzero market caps,
the target column the script computes (restrict, then `pct_change`, then
`bfill`) is exactly `expectedMcapCol`. -/
lemma mcapCol_eq_expected (m : PSeries) (I : List Nat) (f : Nat → Rat)
    (hm : ∀ d ∈ I, slookup m d = some (Cell.num (f d)))
    (hz : ∀ d ∈ I, f d ≠ 0) :
    mcapColCode m I = expectedMcapCol f I := by
  unfold mcapColCode pct_change
  rw [sloc_of_num m f I hm]
  cases I with
  | nil => rfl
  | cons d0 t =>
      have hz0 : f d0 ≠ 0 := hz d0 (List.mem_cons_self _ _)
      have hzt : ∀ d ∈ t, f d ≠ 0 := fun d hd => hz d (List.mem_cons_of_mem _ hd)
      simp only [List.map_cons, pctAux, cpct, Cell.cdiv, Cell.csub, reduceCtorEq,
        if_false, if_true]
      rw [pctAux_num f t d0 hz0 hzt]
      cases t with
      | nil => rfl
      | cons d1 t' =>
          have hval : ∀ r ∈ chainAux f d0 (d1 :: t'), r.2 ≠ Cell.na := by
            intro r hr h
            have := chainAux_vals f (d1 :: t') d0 r hr
            rw [h] at this
            exact Bool.noConfusion this
          simp only [chainAux, bfill, List.map_cons, List.find?]
          rw [bfill_no_na _ (fun r hr => hval r (List.mem_cons_of_mem _ hr))]
          rfl

end C1Lemmas

/-- C1 (amended): in `FeatureTargetBuilder`'s target construction the
market-cap percentage-change column of `y` is computed on the market-cap
series *restricted to the aligned index* and only then differenced, with
the leading gap filled by backward propagation of the next valid value;
concretely, on an aligned index `I` whose dates carry finite nonzero
market caps `f`, entry `i ≥ 1` equals `f I_i / f I_(i-1) - 1` and entry 0
repeats entry 1.  The exchange-rate column applies the same combinator
(`mcapColCode`) to the exchange-rate series. -/
theorem c1_restrict_before_diff (m : PSeries) (I : List Nat) (f : Nat → Rat)
    (hm : ∀ d ∈ I, slookup m d = some (Cell.num (f d)))
    (hz : ∀ d ∈ I, f d ≠ 0) :
    mcapColCode m I = expectedMcapCol f I :=
  mcapCol_eq_expected m I f hm hz

/-- C1 counterexample: for the market-cap series `100, 200, 400` on dates
`0, 1, 2` and the aligned index `{0, 2}`, the script's column (restrict
first — line 419) is `3, 3`, while the claimed
restrict-after-differencing column is `1, 1`; the claim's equation fails. -/
theorem c1_counterexample :
    mcapColCode [(0, Cell.num 100), (1, Cell.num 200), (2, Cell.num 400)] [0, 2] =
        [(0, Cell.num 3), (2, Cell.num 3)] ∧
      mcapColSpec [(0, Cell.num 100), (1, Cell.num 200), (2, Cell.num 400)] [0, 2] =
        [(0, Cell.num 1), (2, Cell.num 1)] ∧
      mcapColCode [(0, Cell.num 100), (1, Cell.num 200), (2, Cell.num 400)] [0, 2] ≠
        mcapColSpec [(0, Cell.num 100), (1, Cell.num 200), (2, Cell.num 400)] [0, 2] := by
  refine ⟨by with_unfolding_all decide, by with_unfolding_all decide,
    by with_unfolding_all decide⟩

/-- C1 witness: the amended characterization instantiated on the series
`2, 4` over dates `0, 1` with the aligned index `{0, 1}`. -/
theorem c1_witness :
    (∀ d ∈ [0, 1], slookup [(0, Cell.num 2), (1, Cell.num 4)] d =
        some (Cell.num (if d = 0 then (2 : Rat) else 4))) ∧
      (∀ d ∈ [0, 1], (if d = 0 then (2 : Rat) else 4) ≠ 0) ∧
      mcapColCode [(0, Cell.num 2), (1, Cell.num 4)] [0, 1] =
        expectedMcapCol (fun d => if d = 0 then (2 : Rat) else 4) [0, 1] :=
  ⟨by with_unfolding_all decide, by with_unfolding_all decide,
    c1_restrict_before_diff _ _ _ (by with_unfolding_all decide)
      (by with_unfolding_all decide)⟩


section C2Lemmas

/-- Membership after iterated filtering: a date survives the fold of
filters exactly when it was in the initial index and passes every
dataset's membership test. -/
lemma mem_foldl_filter {β : Type} (p : β → Nat → Bool) :
    ∀ (l : List β) (init : List Nat) (d : Nat),
      d ∈ l.foldl (fun acc b => acc.filter (p b)) init ↔
        d ∈ init ∧ ∀ b ∈ l, p b d = true := by
  intro l
  induction l with
  | nil => intro init d; simp
  | cons b t ih =>
      intro init d
      simp only [List.foldl_cons]
      rw [ih]
      simp only [List.mem_filter, List.forall_mem_cons]
      tauto

/-- A date is in the folded intersection exactly when every dataset's
index contains it. -/
lemma mem_commonDates (d0 : PFrame) (rest : List PFrame) (d : Nat) :
    d ∈ commonDates (d0 :: rest) ↔ ∀ df ∈ d0 :: rest, d ∈ df.index := by
  unfold commonDates
  rw [mem_foldl_filter (fun df d => decide (d ∈ df.index)) rest d0.index d]
  simp [List.forall_mem_cons]

/-- Index membership of the aligned frame: the date is common to all
inputs and its concatenated row has no missing cell. -/
lemma align_index_mem (dfs : List PFrame) (d : Nat) :
    d ∈ (align_datasets dfs).index ↔
      d ∈ commonDates dfs ∧
        (concatRow dfs d).all (fun c => c ≠ Cell.na) = true := by
  unfold align_datasets
  by_cases h : (commonDates dfs).isEmpty
  · have hnil : commonDates dfs = [] := by
      cases hc : commonDates dfs with
      | nil => rfl
      | cons a t => rw [hc] at h; simp [List.isEmpty] at h
    simp [h, hnil, PFrame.index]
  · rw [if_neg h]
    simp only [PFrame.index, PFrame.dropna, List.mem_map, List.mem_filter]
    constructor
    · rintro ⟨r, ⟨⟨dd, hdd, rfl⟩, hall⟩, heq⟩
      obtain rfl : dd = d := heq
      exact ⟨hdd, hall⟩
    · intro hd
      exact ⟨(d, concatRow dfs d), ⟨⟨d, hd.1, rfl⟩, hd.2⟩, rfl⟩

/-- Emptiness of the aligned frame: either the intersection is empty or
every common date's concatenated row has a missing cell. -/
lemma align_empty_iff (dfs : List PFrame) :
    (align_datasets dfs).isEmpty = true ↔
      (commonDates dfs = [] ∨
        ∀ d ∈ commonDates dfs,
          (concatRow dfs d).all (fun c => c ≠ Cell.na) = false) := by
  unfold align_datasets
  by_cases h : (commonDates dfs).isEmpty
  · have hnil : commonDates dfs = [] := by
      cases hc : commonDates dfs with
      | nil => rfl
      | cons a t => rw [hc] at h; simp [List.isEmpty] at h
    simp [h, hnil, PFrame.isEmpty]
  · rw [if_neg h]
    have hne : commonDates dfs ≠ [] := by
      intro hc; rw [hc] at h; exact h rfl
    simp only [PFrame.isEmpty, PFrame.dropna, List.isEmpty_iff,
      List.filter_eq_nil_iff, hne, false_or]
    constructor
    · intro hall d hd
      have h2 := hall (d, concatRow dfs d) (List.mem_map.mpr ⟨d, hd, rfl⟩)
      simpa using h2
    · intro hall r hr
      obtain ⟨dd, hdd, rfl⟩ := List.mem_map.mp hr
      simpa using hall dd hdd

end C2Lemmas

/-- C2 (amended): for every nonempty list of date-indexed inputs with
unique dates, the Aligner's output index is the set intersection of all
input indices minus dates whose concatenated row still has a missing
value; and the output is empty iff the intersection is empty *or every
intersected date carries a residual missing value* (the script's
`dropna` can empty a nonempty intersection, so emptiness is not
equivalent to an empty intersection). -/
theorem c2_align_characterization (dfs : List PFrame) (hne : dfs ≠ [])
    (hnd : ∀ df ∈ dfs, df.index.Nodup) :
    (∀ d, d ∈ (align_datasets dfs).index ↔
        ((∀ df ∈ dfs, d ∈ df.index) ∧
          (concatRow dfs d).all (fun c => c ≠ Cell.na) = true)) ∧
      ((align_datasets dfs).isEmpty = true ↔
        (commonDates dfs = [] ∨
          ∀ d ∈ commonDates dfs,
            (concatRow dfs d).all (fun c => c ≠ Cell.na) = false)) := by
  obtain ⟨d0, rest, rfl⟩ : ∃ d0 rest, dfs = d0 :: rest := by
    cases dfs with
    | nil => exact absurd rfl hne
    | cons a t => exact ⟨a, t, rfl⟩
  refine ⟨fun d => ?_, align_empty_iff _⟩
  rw [align_index_mem, mem_commonDates]

/-- C2 counterexample: a single input whose only date carries a missing
value — the intersection `{0}` is nonempty, yet the aligned output is
empty, refuting "empty iff the intersection is empty". -/
theorem c2_counterexample :
    (align_datasets [⟨[(0, [Cell.na])]⟩]).isEmpty = true ∧
      commonDates [⟨[(0, [Cell.na])]⟩] = [0] := by
  exact ⟨rfl, rfl⟩

/-- C2 witness: the characterization instantiated on two complete inputs
overlapping exactly on date 1. -/
theorem c2_witness :
    ([(⟨[(0, [Cell.num 1]), (1, [Cell.num 2])]⟩ : PFrame), ⟨[(1, [Cell.num 3])]⟩] ≠
        ([] : List PFrame)) ∧
      (∀ df ∈ [(⟨[(0, [Cell.num 1]), (1, [Cell.num 2])]⟩ : PFrame), ⟨[(1, [Cell.num 3])]⟩],
        df.index.Nodup) ∧
      (∀ d, d ∈ (align_datasets
          [(⟨[(0, [Cell.num 1]), (1, [Cell.num 2])]⟩ : PFrame), ⟨[(1, [Cell.num 3])]⟩]).index ↔
        ((∀ df ∈ [(⟨[(0, [Cell.num 1]), (1, [Cell.num 2])]⟩ : PFrame), ⟨[(1, [Cell.num 3])]⟩],
            d ∈ df.index) ∧
          (concatRow [(⟨[(0, [Cell.num 1]), (1, [Cell.num 2])]⟩ : PFrame), ⟨[(1, [Cell.num 3])]⟩]
              d).all (fun c => c ≠ Cell.na) = true)) :=
  ⟨by decide, by decide,
    (c2_align_characterization _ (by decide) (by decide)).1⟩

section LookupLemmas

/-- A cell is a finite number exactly when it is not one of the other
constructors; in particular it is never `na`. -/
lemma ne_na_of_isNum {c : Cell} (h : c.isNum = true) : c ≠ Cell.na := by
  cases c <;> simp [Cell.isNum] at h ⊢

/-- A date present in a series' date list has a value. -/
lemma slookup_of_mem (s : PSeries) (d : Nat) (h : d ∈ s.map (·.1)) :
    ∃ c, slookup s d = some c := by
  obtain ⟨r, hr, hfst⟩ := List.mem_map.mp h
  unfold slookup
  cases hfind : s.find? (fun r => r.1 = d) with
  | some r' => exact ⟨r'.2, rfl⟩
  | none =>
      have := List.find?_eq_none.mp hfind r hr
      simp [hfst] at this

/-- A looked-up value belongs to the series' value list. -/
lemma slookup_mem_val {s : PSeries} {d : Nat} {c : Cell}
    (h : slookup s d = some c) : ∃ r ∈ s, r.2 = c := by
  unfold slookup at h
  obtain ⟨r, hr, hc⟩ := Option.map_eq_some'.mp h
  exact ⟨r, List.mem_of_find?_eq_some hr, hc⟩

/-- Looked-up values inherit a pointwise property of the series. -/
lemma slookup_isNum {s : PSeries} {d : Nat} {c : Cell}
    (hall : s.all (fun r => r.2.isNum) = true) (h : slookup s d = some c) :
    c.isNum = true := by
  obtain ⟨r, hr, rfl⟩ := slookup_mem_val h
  exact List.all_eq_true.mp hall r hr

/-- The finite value a series holds under a date (0 when absent or not
finite); used to name the market-cap values abstractly. -/
def extractVal (s : PSeries) (d : Nat) : Rat :=
  match slookup s d with
  | some (Cell.num q) => q
  | _ => 0

/-- On an all-finite-nonzero series, lookups return exactly
`num (extractVal s d)` with a nonzero value. -/
lemma slookup_extract (s : PSeries) (d : Nat)
    (hall : s.all (fun r => r.2.isNZ) = true) (hd : d ∈ s.map (·.1)) :
    slookup s d = some (Cell.num (extractVal s d)) ∧ extractVal s d ≠ 0 := by
  obtain ⟨c, hc⟩ := slookup_of_mem s d hd
  obtain ⟨r, hr, rfl⟩ := slookup_mem_val hc
  have hnz : r.2.isNZ = true := List.all_eq_true.mp hall r hr
  cases hcell : r.2 with
  | num q =>
      have hq : q ≠ 0 := by
        rw [hcell] at hnz
        simpa [Cell.isNZ] using hnz
      rw [hcell] at hc
      have hv : extractVal s d = q := by unfold extractVal; rw [hc]
      rw [hv]
      exact ⟨hc, hq⟩
  | na => rw [hcell] at hnz; simp [Cell.isNZ] at hnz
  | pinf => rw [hcell] at hnz; simp [Cell.isNZ] at hnz
  | ninf => rw [hcell] at hnz; simp [Cell.isNZ] at hnz

/-- A date present in a frame's index has a row. -/
lemma lookupRow_of_mem (f : PFrame) (d : Nat) (h : d ∈ f.index) :
    ∃ r, f.lookupRow d = some r := by
  obtain ⟨r, hr, hfst⟩ := List.mem_map.mp h
  unfold PFrame.lookupRow
  cases hfind : f.rows.find? (fun r => r.1 = d) with
  | some r' => exact ⟨r'.2, rfl⟩
  | none =>
      have := List.find?_eq_none.mp hfind r hr
      simp [hfst] at this

/-- Restricting a frame to labels it contains keeps exactly those
labels, in order. -/
lemma loc_index (f : PFrame) :
    ∀ I : List Nat, (∀ d ∈ I, d ∈ f.index) → (f.loc I).index = I := by
  intro I
  induction I with
  | nil => intro _; rfl
  | cons d t ih =>
      intro h
      obtain ⟨r, hr⟩ := lookupRow_of_mem f d (h d (List.mem_cons_self _ _))
      simp only [PFrame.loc, PFrame.index, List.filterMap_cons, hr,
        Option.map_some', List.map_cons]
      have ht := ih (fun d' hd' => h d' (List.mem_cons_of_mem _ hd'))
      simp only [PFrame.loc, PFrame.index] at ht
      rw [ht]

/-- Row count of a label restriction to contained labels. -/
lemma loc_length (f : PFrame) (I : List Nat) (h : ∀ d ∈ I, d ∈ f.index) :
    (f.loc I).rows.length = I.length := by
  have := loc_index f I h
  simpa [PFrame.index] using congrArg List.length this

/-- Restricting a series to dates it contains keeps exactly those
dates. -/
lemma sloc_fst (s : PSeries) :
    ∀ I : List Nat, (∀ d ∈ I, d ∈ s.map (·.1)) → (sloc s I).map (·.1) = I := by
  intro I
  induction I with
  | nil => intro _; rfl
  | cons d t ih =>
      intro h
      obtain ⟨c, hc⟩ := slookup_of_mem s d (h d (List.mem_cons_self _ _))
      simp only [sloc, List.filterMap_cons, hc, Option.map_some', List.map_cons]
      have ht := ih (fun d' hd' => h d' (List.mem_cons_of_mem _ hd'))
      simp only [sloc] at ht
      rw [ht]

/-- Values of a restricted series are values of the original series. -/
lemma sloc_vals {s : PSeries} {I : List Nat} {r : Nat × Cell}
    (hr : r ∈ sloc s I) : ∃ r' ∈ s, r'.2 = r.2 := by
  obtain ⟨d, _, hmap⟩ := List.mem_filterMap.mp hr
  obtain ⟨c, hc, hpair⟩ := Option.map_eq_some'.mp hmap
  obtain ⟨r', hr', hv⟩ := slookup_mem_val hc
  exact ⟨r', hr', by rw [hv, ← hpair]⟩

end LookupLemmas


section TargetLemmas

/-- Subtraction of two finite cells is finite. -/
lemma csub_isNum {a b : Cell} (ha : a.isNum = true) (hb : b.isNum = true) :
    (csub a b).isNum = true := by
  cases a <;> cases b <;> simp [Cell.isNum, Cell.csub] at *

/-- A looked-up-with-default value is finite when the series is
all-finite and contains the date. -/
lemma getD_isNum (s : PSeries) (d : Nat)
    (hall : s.all (fun r => r.2.isNum) = true) (hd : d ∈ s.map (·.1)) :
    ((slookup s d).getD Cell.na).isNum = true := by
  obtain ⟨c, hcl⟩ := slookup_of_mem s d hd
  rw [hcl]
  exact slookup_isNum hall hcl

/-- Dates of the excess-return column are the requested index. -/
lemma yExcess_fst (mkt rf : PSeries) (I : List Nat)
    (hIm : ∀ d ∈ I, d ∈ mkt.map (·.1)) :
    (yExcess mkt rf I).map (·.1) = I := by
  unfold yExcess
  rw [List.map_map]
  exact sloc_fst mkt I hIm

/-- Every excess-return value is finite when both inputs are all-finite
and the index is contained in both. -/
lemma yExcess_all (mkt rf : PSeries) (I : List Nat)
    (hIr : ∀ d ∈ I, d ∈ rf.map (·.1))
    (hm : mkt.all (fun r => r.2.isNum) = true)
    (hr : rf.all (fun r => r.2.isNum) = true) :
    (yExcess mkt rf I).all (fun r => r.2.isNum) = true := by
  rw [List.all_eq_true]
  rintro r hr'
  obtain ⟨r', hr'', rfl⟩ := List.mem_map.mp hr'
  have h1 : r'.2.isNum = true := by
    obtain ⟨r0, h0, hv⟩ := sloc_vals hr''
    rw [← hv]
    exact List.all_eq_true.mp hm r0 h0
  have hrloc : (sloc rf I).all (fun r => r.2.isNum) = true := by
    rw [List.all_eq_true]
    intro r0 h0
    obtain ⟨r1, h1', hv⟩ := sloc_vals h0
    rw [← hv]
    exact List.all_eq_true.mp hr r1 h1'
  have hfst : r'.1 ∈ I := by
    obtain ⟨d, hd, hmap⟩ := List.mem_filterMap.mp hr''
    obtain ⟨c, _, hpair⟩ := Option.map_eq_some'.mp hmap
    rw [← hpair]
    exact hd
  have hmem : r'.1 ∈ (sloc rf I).map (·.1) := by
    rw [sloc_fst rf I hIr]
    exact hfst
  exact csub_isNum h1 (getD_isNum _ _ hrloc hmem)

/-- Dates of a ratio chain are its index argument. -/
lemma chainAux_fst (f : Nat → Rat) :
    ∀ (t : List Nat) (p : Nat), (chainAux f p t).map (·.1) = t := by
  intro t
  induction t with
  | nil => intro _; rfl
  | cons d t' ih => intro p; simp only [chainAux, List.map_cons, ih]

/-- Dates of the expected market-cap column are the aligned index. -/
lemma expectedMcapCol_fst (f : Nat → Rat) (I : List Nat) :
    (expectedMcapCol f I).map (·.1) = I := by
  match I with
  | [] => rfl
  | [d] => rfl
  | d0 :: d1 :: t =>
      simp only [expectedMcapCol, List.map_cons]
      rw [show ((chainAux f d0 (d1 :: t)).map (·.1)) = d1 :: t from
        chainAux_fst f (d1 :: t) d0]

/-- With at least two aligned dates, every entry of the expected
market-cap column is finite. -/
lemma expectedMcapCol_all (f : Nat → Rat) (I : List Nat) (h2 : 2 ≤ I.length) :
    (expectedMcapCol f I).all (fun r => r.2.isNum) = true := by
  match I with
  | [] => rfl
  | [d] => exact absurd h2 (by simp)
  | d0 :: d1 :: t =>
      rw [List.all_eq_true]
      intro r hrm
      rcases List.mem_cons.mp hrm with h | h
      · subst h; rfl
      · exact chainAux_vals f (d1 :: t) d0 r h

/-- Projecting the first component back out of a pairing map restores
the original list. -/
lemma map_fst_pair {α β : Type} (g : α → β) (l : List α) :
    (l.map (fun a => (a, g a))).map (·.1) = l := by
  induction l with
  | nil => rfl
  | cons a t ih => simp only [List.map_cons, ih]

/-- With at least two dates, every row of the target frame survives the
final `dropna`: one row per aligned date, in order. -/
lemma targets_index (mkt rf mcap usd : PSeries) (I : List Nat)
    (hIm : ∀ d ∈ I, d ∈ mkt.map (·.1)) (hIr : ∀ d ∈ I, d ∈ rf.map (·.1))
    (hIc : ∀ d ∈ I, d ∈ mcap.map (·.1)) (hIu : ∀ d ∈ I, d ∈ usd.map (·.1))
    (hm : mkt.all (fun r => r.2.isNum) = true)
    (hr : rf.all (fun r => r.2.isNum) = true)
    (hc : mcap.all (fun r => r.2.isNZ) = true)
    (hu : usd.all (fun r => r.2.isNZ) = true)
    (h2 : 2 ≤ I.length) :
    (targetsOf mkt rf mcap usd I).index = I ∧
      (targetsOf mkt rf mcap usd I).rows.length = I.length := by
  have hmc : mcapColCode mcap I = expectedMcapCol (extractVal mcap) I :=
    mcapCol_eq_expected mcap I (extractVal mcap)
      (fun d hd => (slookup_extract mcap d hc (hIc d hd)).1)
      (fun d hd => (slookup_extract mcap d hc (hIc d hd)).2)
  have huc : mcapColCode usd I = expectedMcapCol (extractVal usd) I :=
    mcapCol_eq_expected usd I (extractVal usd)
      (fun d hd => (slookup_extract usd d hu (hIu d hd)).1)
      (fun d hd => (slookup_extract usd d hu (hIu d hd)).2)
  have key : ∀ d ∈ I,
      ((slookup (yExcess mkt rf I) d).getD Cell.na ≠ Cell.na) ∧
        ((slookup (mcapColCode mcap I) d).getD Cell.na ≠ Cell.na) ∧
        ((slookup (mcapColCode usd I) d).getD Cell.na ≠ Cell.na) := by
    intro d hd
    refine ⟨?_, ?_, ?_⟩
    · refine ne_na_of_isNum (getD_isNum _ _ (yExcess_all mkt rf I hIr hm hr) ?_)
      rw [yExcess_fst mkt rf I hIm]
      exact hd
    · rw [hmc]
      refine ne_na_of_isNum (getD_isNum _ _ (expectedMcapCol_all _ I h2) ?_)
      rw [expectedMcapCol_fst]
      exact hd
    · rw [huc]
      refine ne_na_of_isNum (getD_isNum _ _ (expectedMcapCol_all _ I h2) ?_)
      rw [expectedMcapCol_fst]
      exact hd
  have hfe : (targetsOf mkt rf mcap usd I).rows =
      I.map (fun d => (d,
        [ (slookup (yExcess mkt rf I) d).getD Cell.na,
          (slookup (mcapColCode mcap I) d).getD Cell.na,
          (slookup (mcapColCode usd I) d).getD Cell.na ])) := by
    unfold targetsOf PFrame.dropna
    apply List.filter_eq_self.mpr
    intro a ha
    obtain ⟨d, hd, rfl⟩ := List.mem_map.mp ha
    obtain ⟨k1, k2, k3⟩ := key d hd
    simp [k1, k2, k3]
  constructor
  · unfold PFrame.index
    rw [hfe]
    exact map_fst_pair _ I
  · rw [hfe, List.length_map]

/-- On a singleton aligned index, the market-cap change is missing even
after back-fill, so the whole target frame is emptied by `dropna`. -/
lemma targets_singleton (mkt rf mcap usd : PSeries) (d0 : Nat)
    (hIc : d0 ∈ mcap.map (·.1)) (hc : mcap.all (fun r => r.2.isNZ) = true) :
    (targetsOf mkt rf mcap usd [d0]).rows = [] := by
  have hmc : mcapColCode mcap [d0] = expectedMcapCol (extractVal mcap) [d0] :=
    mcapCol_eq_expected mcap [d0] (extractVal mcap)
      (fun d hd => by
        rw [List.mem_singleton.mp hd]
        exact (slookup_extract mcap d0 hc hIc).1)
      (fun d hd => by
        rw [List.mem_singleton.mp hd]
        exact (slookup_extract mcap d0 hc hIc).2)
  have hc2 : (slookup (mcapColCode mcap [d0]) d0).getD Cell.na = Cell.na := by
    rw [hmc]
    simp [expectedMcapCol, slookup]
  unfold targetsOf PFrame.dropna
  simp [hc2]

end TargetLemmas

section PipelineLemmas

/-- The index of the one-column frame of a series is the series' dates. -/
lemma toFrame_index (s : PSeries) : (toFrame s).index = s.map (·.1) := by
  unfold toFrame PFrame.index
  rw [List.map_map]
  rfl

/-- A successful `process_data` means the aligned frame was nonempty and
the split step succeeded on the final feature and target frames. -/
lemma process_data_some_parts (prices : PFrame) (mkt rf mcap usd : PSeries)
    {t : PFrame × PFrame × PFrame × PFrame}
    (h : process_data prices mkt rf mcap usd = some t) :
    (alignedOf prices mkt rf mcap usd).isEmpty = false ∧
      splitStep (finalXOf prices mkt rf mcap usd)
        (targetsOf mkt rf mcap usd (alignedOf prices mkt rf mcap usd).index) =
          some t := by
  unfold process_data at h
  by_cases hemp : (alignedOf prices mkt rf mcap usd).isEmpty
  · rw [if_pos hemp] at h
    exact absurd h (by simp)
  · rw [if_neg hemp] at h
    exact ⟨by simpa using hemp, h⟩

/-- Dissection of a successful split: the four outputs are the
prefix/suffix parts at the scikit-learn cut, which is strictly inside
the table. -/
lemma splitStep_some_parts (Xf y Xtr Xte ytr yte : PFrame)
    (h : splitStep Xf y = some (Xtr, Xte, ytr, yte)) :
    ∃ nTr,
      Xtr.rows = Xf.rows.take nTr ∧ Xte.rows = Xf.rows.drop nTr ∧
        ytr.rows = y.rows.take nTr ∧ yte.rows = y.rows.drop nTr ∧
        0 < nTr ∧ nTr < Xf.rows.length ∧
        nTr = Xf.rows.length - (33 * Xf.rows.length + 99) / 100 ∧
        Xf.rows.length = y.rows.length := by
  unfold splitStep at h
  by_cases h1 : Xf.isEmpty
  · rw [if_pos h1] at h
    exact absurd h (by simp)
  rw [if_neg h1] at h
  by_cases h2 : Xf.rows.length ≠ y.rows.length
  · rw [if_pos h2] at h
    exact absurd h (by simp)
  rw [if_neg h2] at h
  push_neg at h2
  cases hs : train_test_split_sizes Xf.rows.length with
  | none =>
      rw [hs] at h
      exact absurd h (by simp)
  | some p =>
      obtain ⟨nTr, nTe⟩ := p
      rw [hs] at h
      simp only [Option.some.injEq, Prod.mk.injEq] at h
      obtain ⟨e1, e2, e3, e4⟩ := h
      unfold train_test_split_sizes at hs
      by_cases hz : Xf.rows.length - (33 * Xf.rows.length + 99) / 100 = 0 ∨
          (33 * Xf.rows.length + 99) / 100 = 0
      · rw [if_pos hz] at hs
        exact absurd hs (by simp)
      · rw [if_neg hz] at hs
        push_neg at hz
        simp only [Option.some.injEq, Prod.mk.injEq] at hs
        obtain ⟨hTr, hTe⟩ := hs
        refine ⟨nTr, by rw [← e1], by rw [← e2], by rw [← e3], by rw [← e4],
          ?_, ?_, by omega, h2⟩
        · omega
        · have hd : (33 * Xf.rows.length + 99) / 100 ≤ 33 * Xf.rows.length + 99 :=
            Nat.div_le_self _ _
          omega

end PipelineLemmas

/-- C3 (amended): for every successful `process_data` run on all-finite
market and risk-free series and all-finite-nonzero market-cap and
exchange-rate series, the split sizes satisfy
`|X_train| + |X_test| = |AlignedFrame|` *exactly*: the one row lost to
return differencing disappears before alignment (the aligned frame is
built from already-differenced stock returns), not after it. -/
theorem c3_split_total (prices : PFrame) (mkt rf mcap usd : PSeries)
    (Xtr Xte ytr yte : PFrame)
    (hsome : process_data prices mkt rf mcap usd = some (Xtr, Xte, ytr, yte))
    (hm : mkt.all (fun r => r.2.isNum) = true)
    (hr : rf.all (fun r => r.2.isNum) = true)
    (hc : mcap.all (fun r => r.2.isNZ) = true)
    (hu : usd.all (fun r => r.2.isNZ) = true) :
    Xtr.rows.length + Xte.rows.length =
      (alignedOf prices mkt rf mcap usd).rows.length := by
  obtain ⟨hempty, hsplit⟩ := process_data_some_parts prices mkt rf mcap usd hsome
  have hIdfs : ∀ d ∈ (alignedOf prices mkt rf mcap usd).index,
      ∀ df ∈ [calculate_returns prices, toFrame mkt, toFrame rf,
        toFrame mcap, toFrame usd], d ∈ df.index := by
    intro d hd df hdf
    have h1 := (align_index_mem _ d).mp hd
    exact (mem_commonDates _ _ d).mp h1.1 df hdf
  have hIm : ∀ d ∈ (alignedOf prices mkt rf mcap usd).index, d ∈ mkt.map (·.1) := by
    intro d hd
    have := hIdfs d hd (toFrame mkt) (by simp)
    rwa [toFrame_index] at this
  have hIr : ∀ d ∈ (alignedOf prices mkt rf mcap usd).index, d ∈ rf.map (·.1) := by
    intro d hd
    have := hIdfs d hd (toFrame rf) (by simp)
    rwa [toFrame_index] at this
  have hIc : ∀ d ∈ (alignedOf prices mkt rf mcap usd).index, d ∈ mcap.map (·.1) := by
    intro d hd
    have := hIdfs d hd (toFrame mcap) (by simp)
    rwa [toFrame_index] at this
  have hIu : ∀ d ∈ (alignedOf prices mkt rf mcap usd).index, d ∈ usd.map (·.1) := by
    intro d hd
    have := hIdfs d hd (toFrame usd) (by simp)
    rwa [toFrame_index] at this
  have hIsr : ∀ d ∈ (alignedOf prices mkt rf mcap usd).index,
      d ∈ (calculate_returns prices).index :=
    fun d hd => hIdfs d hd (calculate_returns prices) (by simp)
  obtain ⟨nTr, e1, e2, _, _, hpos, hlt, _, _⟩ :=
    splitStep_some_parts _ _ _ _ _ _ hsplit
  have hsum : Xtr.rows.length + Xte.rows.length =
      (finalXOf prices mkt rf mcap usd).rows.length := by
    rw [e1, e2, List.length_take, List.length_drop]
    omega
  rw [hsum]
  have hrowsidx : (alignedOf prices mkt rf mcap usd).rows.length =
      (alignedOf prices mkt rf mcap usd).index.length := by
    simp [PFrame.index]
  rw [hrowsidx]
  rcases hI : (alignedOf prices mkt rf mcap usd).index with _ | ⟨d0, t0⟩
  · exfalso
    have : (alignedOf prices mkt rf mcap usd).rows = [] := by
      have := congrArg List.length hI
      simp only [PFrame.index, List.length_map, List.length_nil] at this
      exact List.length_eq_zero.mp this
    rw [PFrame.isEmpty, this] at hempty
    simp at hempty
  rcases ht0 : t0 with _ | ⟨d1, t1⟩
  · exfalso
    rw [ht0] at hI
    have hy : (targetsOf mkt rf mcap usd
        (alignedOf prices mkt rf mcap usd).index).rows = [] := by
      rw [hI]
      exact targets_singleton mkt rf mcap usd d0
        (hIc d0 (by rw [hI]; exact List.mem_singleton_self d0)) hc
    have hXf : (finalXOf prices mkt rf mcap usd).rows = [] := by
      simp only [finalXOf]
      rw [show (targetsOf mkt rf mcap usd
          (alignedOf prices mkt rf mcap usd).index).index = [] by
        rw [PFrame.index, hy]; rfl]
      rfl
    rw [hXf] at hlt
    simp at hlt
  · rw [ht0] at hI
    have h2 : 2 ≤ (alignedOf prices mkt rf mcap usd).index.length := by
      rw [hI]
      simp
    obtain ⟨hyidx, hylen⟩ := targets_index mkt rf mcap usd
      (alignedOf prices mkt rf mcap usd).index hIm hIr hIc hIu hm hr hc hu h2
    have hinner : ((calculate_returns prices).loc
        (alignedOf prices mkt rf mcap usd).index).index =
        (alignedOf prices mkt rf mcap usd).index :=
      loc_index _ _ hIsr
    have hXflen : (finalXOf prices mkt rf mcap usd).rows.length =
        (alignedOf prices mkt rf mcap usd).index.length := by
      simp only [finalXOf]
      rw [hyidx]
      refine loc_length _ _ ?_
      intro d hd
      rw [hinner]
      exact hd
    rw [hXflen, hI]

/-- C3 counterexample: a successful run with one symbol over four dates
and external series over three.  The aligned frame has 3 rows and the
split totals 3 rows as well — not `3 - 1` as the claim asserts: the
differencing row was already gone before alignment. -/
theorem c3_counterexample :
    (process_data ⟨[(0, [Cell.num 1]), (1, [Cell.num 2]), (2, [Cell.num 4]), (3, [Cell.num 8])]⟩
        [(1, Cell.num 5), (2, Cell.num 5), (3, Cell.num 5)]
        [(1, Cell.num 5), (2, Cell.num 5), (3, Cell.num 5)]
        [(1, Cell.num 1), (2, Cell.num 2), (3, Cell.num 4)]
        [(1, Cell.num 1), (2, Cell.num 2), (3, Cell.num 4)]).map
          (fun t => t.1.rows.length + t.2.1.rows.length) = some 3 ∧
      (alignedOf ⟨[(0, [Cell.num 1]), (1, [Cell.num 2]), (2, [Cell.num 4]), (3, [Cell.num 8])]⟩
        [(1, Cell.num 5), (2, Cell.num 5), (3, Cell.num 5)]
        [(1, Cell.num 5), (2, Cell.num 5), (3, Cell.num 5)]
        [(1, Cell.num 1), (2, Cell.num 2), (3, Cell.num 4)]
        [(1, Cell.num 1), (2, Cell.num 2), (3, Cell.num 4)]).rows.length = 3 ∧
      (3 : Nat) ≠ 3 - 1 := by
  refine ⟨by with_unfolding_all decide, by with_unfolding_all decide, by decide⟩

/-- C3 witness: the amended equality instantiated on a concrete
successful run (two aligned dates; split sizes 1 and 1). -/
theorem c3_witness :
    process_data ⟨[(0, [Cell.num 1]), (1, [Cell.num 3]), (2, [Cell.num 9])]⟩
        [(1, Cell.num 7), (2, Cell.num 7)] [(1, Cell.num 7), (2, Cell.num 7)]
        [(1, Cell.num 2), (2, Cell.num 6)] [(1, Cell.num 2), (2, Cell.num 6)] =
      some (⟨[(1, [Cell.num 2])]⟩, ⟨[(2, [Cell.num 2])]⟩,
            ⟨[(1, [Cell.num 0, Cell.num 2, Cell.num 2])]⟩,
            ⟨[(2, [Cell.num 0, Cell.num 2, Cell.num 2])]⟩) ∧
      (⟨[(1, [Cell.num 2])]⟩ : PFrame).rows.length +
          (⟨[(2, [Cell.num 2])]⟩ : PFrame).rows.length =
        (alignedOf ⟨[(0, [Cell.num 1]), (1, [Cell.num 3]), (2, [Cell.num 9])]⟩
          [(1, Cell.num 7), (2, Cell.num 7)] [(1, Cell.num 7), (2, Cell.num 7)]
          [(1, Cell.num 2), (2, Cell.num 6)] [(1, Cell.num 2), (2, Cell.num 6)]).rows.length :=
  ⟨by with_unfolding_all decide,
    c3_split_total ⟨[(0, [Cell.num 1]), (1, [Cell.num 3]), (2, [Cell.num 9])]⟩
      [(1, Cell.num 7), (2, Cell.num 7)] [(1, Cell.num 7), (2, Cell.num 7)]
      [(1, Cell.num 2), (2, Cell.num 6)] [(1, Cell.num 2), (2, Cell.num 6)]
      ⟨[(1, [Cell.num 2])]⟩ ⟨[(2, [Cell.num 2])]⟩
      ⟨[(1, [Cell.num 0, Cell.num 2, Cell.num 2])]⟩
      ⟨[(2, [Cell.num 0, Cell.num 2, Cell.num 2])]⟩
      (by with_unfolding_all decide)
      (by with_unfolding_all decide) (by with_unfolding_all decide)
      (by with_unfolding_all decide) (by with_unfolding_all decide)⟩

section SortLemmas

/-- Columnwise differencing preserves the frame's date list. -/
lemma pctRows_fst :
    ∀ (l : List (Nat × List Cell)) (prev : List Cell),
      (PFrame.pctRows prev l).map (·.1) = l.map (·.1) := by
  intro l
  induction l with
  | nil => intro _; rfl
  | cons r t ih =>
      intro prev
      obtain ⟨d, row⟩ := r
      simp only [PFrame.pctRows, List.map_cons]
      rw [ih]

/-- The return frame's index is a sublist of the price frame's index
(`pct_change` keeps every date, `dropna` only removes rows). -/
lemma calc_returns_sublist (p : PFrame) :
    ((calculate_returns p).index).Sublist p.index := by
  unfold calculate_returns PFrame.dropna PFrame.pct_change PFrame.index
  have h1 := (List.filter_sublist (l := PFrame.pctRows
    (List.replicate ((p.rows.head?.map (·.2.length)).getD 0) Cell.na) p.rows)
    (p := fun r => r.2.all (fun c => c ≠ Cell.na))).map (·.1)
  rwa [pctRows_fst] at h1

/-- The iterated intersection is a sublist of the first index. -/
lemma foldl_filter_sublist {β : Type} (p : β → Nat → Bool) :
    ∀ (l : List β) (init : List Nat),
      (l.foldl (fun acc b => acc.filter (p b)) init).Sublist init := by
  intro l
  induction l with
  | nil => intro init; exact List.Sublist.refl init
  | cons b t ih =>
      intro init
      exact (ih (init.filter (p b))).trans (List.filter_sublist init)

/-- The aligned frame's index is a sublist of the common-date list. -/
lemma align_index_sublist (dfs : List PFrame) :
    ((align_datasets dfs).index).Sublist (commonDates dfs) := by
  unfold align_datasets
  by_cases h : (commonDates dfs).isEmpty
  · rw [if_pos h]
    exact List.nil_sublist _
  · rw [if_neg h]
    unfold PFrame.dropna PFrame.index
    have h1 := (List.filter_sublist
      (l := (commonDates dfs).map (fun d => (d, concatRow dfs d)))
      (p := fun r => r.2.all (fun c => c ≠ Cell.na))).map (·.1)
    rwa [map_fst_pair] at h1

/-- The target frame's index is a sublist of the aligned index. -/
lemma targets_index_sublist (mkt rf mcap usd : PSeries) (I : List Nat) :
    ((targetsOf mkt rf mcap usd I).index).Sublist I := by
  unfold targetsOf PFrame.dropna PFrame.index
  have h1 := (List.filter_sublist
    (l := I.map (fun d => (d,
      [ (slookup (yExcess mkt rf I) d).getD Cell.na,
        (slookup (mcapColCode mcap I) d).getD Cell.na,
        (slookup (mcapColCode usd I) d).getD Cell.na ])))
    (p := fun r => r.2.all (fun c => c ≠ Cell.na))).map (·.1)
  rwa [map_fst_pair] at h1

/-- A label restriction's index is a sublist of the requested labels. -/
lemma loc_index_sublist (f : PFrame) :
    ∀ I : List Nat, ((f.loc I).index).Sublist I := by
  intro I
  induction I with
  | nil => exact List.Sublist.refl []
  | cons d t ih =>
      simp only [PFrame.loc, PFrame.index, List.filterMap_cons]
      cases f.lookupRow d with
      | none =>
          simp only [Option.map_none']
          exact (ih.trans (List.sublist_cons_self d t))
      | some r =>
          simp only [Option.map_some', List.map_cons]
          exact List.Sublist.cons₂ d ih

/-- With a strictly increasing price index, the final feature frame's
index is strictly increasing. -/
lemma finalX_sorted (prices : PFrame) (mkt rf mcap usd : PSeries)
    (hsorted : prices.index.Pairwise (· < ·)) :
    ((finalXOf prices mkt rf mcap usd).index).Pairwise (· < ·) := by
  have h1 : ((calculate_returns prices).index).Pairwise (· < ·) :=
    List.Pairwise.sublist (calc_returns_sublist prices) hsorted
  have h2 : ((alignedOf prices mkt rf mcap usd).index).Pairwise (· < ·) := by
    refine List.Pairwise.sublist ?_ h1
    exact (align_index_sublist _).trans (foldl_filter_sublist _ _ _)
  have h3 : ((targetsOf mkt rf mcap usd
      (alignedOf prices mkt rf mcap usd).index).index).Pairwise (· < ·) :=
    List.Pairwise.sublist (targets_index_sublist _ _ _ _ _) h2
  simp only [finalXOf]
  exact List.Pairwise.sublist (loc_index_sublist _ _) h3

end SortLemmas

/-- C8: for every successful `process_data` run on a chronologically
sorted price table, the split is the strict prefix/suffix partition of
the final frame at the scikit-learn two-thirds cut — no shuffling: the
two parts concatenate back to the final frame, both are nonempty, the
train share is within one row of 0.67 of the total
(`67 n - 100 ≤ 100 |X_train| ≤ 67 n + 100`), and every training date
strictly precedes every test date. -/
theorem c8_chronological_split (prices : PFrame) (mkt rf mcap usd : PSeries)
    (Xtr Xte ytr yte : PFrame)
    (hsome : process_data prices mkt rf mcap usd = some (Xtr, Xte, ytr, yte))
    (hsorted : prices.index.Pairwise (· < ·)) :
    (Xtr.rows ++ Xte.rows = (finalXOf prices mkt rf mcap usd).rows) ∧
      Xtr.rows ≠ [] ∧ Xte.rows ≠ [] ∧
      (100 * Xtr.rows.length ≤
          67 * (Xtr.rows.length + Xte.rows.length) + 100 ∧
        67 * (Xtr.rows.length + Xte.rows.length) ≤
          100 * Xtr.rows.length + 100) ∧
      (∀ d1 ∈ Xtr.index, ∀ d2 ∈ Xte.index, d1 < d2) := by
  obtain ⟨hempty, hsplit⟩ := process_data_some_parts prices mkt rf mcap usd hsome
  obtain ⟨nTr, e1, e2, _, _, hpos, hlt, hformula, _⟩ :=
    splitStep_some_parts _ _ _ _ _ _ hsplit
  have hntr : nTr ≤ (finalXOf prices mkt rf mcap usd).rows.length := hlt.le
  have hlen1 : Xtr.rows.length = nTr := by
    rw [e1, List.length_take]
    omega
  have hlen2 : Xte.rows.length =
      (finalXOf prices mkt rf mcap usd).rows.length - nTr := by
    rw [e2, List.length_drop]
  refine ⟨?_, ?_, ?_, ?_, ?_⟩
  · rw [e1, e2, List.take_append_drop]
  · intro h
    rw [h] at hlen1
    simp at hlen1
    omega
  · intro h
    rw [h] at hlen2
    simp at hlen2
    omega
  · have hdiv := Nat.div_add_mod (33 * (finalXOf prices mkt rf mcap usd).rows.length + 99) 100
    have hmod : (33 * (finalXOf prices mkt rf mcap usd).rows.length + 99) % 100 < 100 :=
      Nat.mod_lt _ (by omega)
    omega
  · have hsorted' := finalX_sorted prices mkt rf mcap usd hsorted
    have hidx : Xtr.index ++ Xte.index = (finalXOf prices mkt rf mcap usd).index := by
      unfold PFrame.index
      rw [e1, e2, ← List.map_append, List.take_append_drop]
    rw [← hidx] at hsorted'
    have := (List.pairwise_append.mp hsorted').2.2
    exact this

/-- C8 witness: the chronological-split properties instantiated on a
concrete successful run (4 sorted price dates, 3 aligned dates, split
2 + 1). -/
theorem c8_witness :
    process_data ⟨[(0, [Cell.num 1]), (1, [Cell.num 2]), (2, [Cell.num 4]), (3, [Cell.num 8])]⟩
        [(1, Cell.num 9), (2, Cell.num 9), (3, Cell.num 9)]
        [(1, Cell.num 4), (2, Cell.num 4), (3, Cell.num 4)]
        [(1, Cell.num 2), (2, Cell.num 4), (3, Cell.num 8)]
        [(1, Cell.num 2), (2, Cell.num 4), (3, Cell.num 8)] =
      some (⟨[(1, [Cell.num 1]), (2, [Cell.num 1])]⟩, ⟨[(3, [Cell.num 1])]⟩,
            ⟨[(1, [Cell.num 5, Cell.num 1, Cell.num 1]),
              (2, [Cell.num 5, Cell.num 1, Cell.num 1])]⟩,
            ⟨[(3, [Cell.num 5, Cell.num 1, Cell.num 1])]⟩) ∧
      (∀ d1 ∈ (⟨[(1, [Cell.num 1]), (2, [Cell.num 1])]⟩ : PFrame).index,
        ∀ d2 ∈ (⟨[(3, [Cell.num 1])]⟩ : PFrame).index, d1 < d2) :=
  ⟨by with_unfolding_all decide,
    (c8_chronological_split
      ⟨[(0, [Cell.num 1]), (1, [Cell.num 2]), (2, [Cell.num 4]), (3, [Cell.num 8])]⟩
      [(1, Cell.num 9), (2, Cell.num 9), (3, Cell.num 9)]
      [(1, Cell.num 4), (2, Cell.num 4), (3, Cell.num 4)]
      [(1, Cell.num 2), (2, Cell.num 4), (3, Cell.num 8)]
      [(1, Cell.num 2), (2, Cell.num 4), (3, Cell.num 8)]
      ⟨[(1, [Cell.num 1]), (2, [Cell.num 1])]⟩ ⟨[(3, [Cell.num 1])]⟩
      ⟨[(1, [Cell.num 5, Cell.num 1, Cell.num 1]),
        (2, [Cell.num 5, Cell.num 1, Cell.num 1])]⟩
      ⟨[(3, [Cell.num 5, Cell.num 1, Cell.num 1])]⟩
      (by with_unfolding_all decide) (by decide)).2.2.2.2⟩

/-- C4: evaluation at the failing input.  Three symbols with pairwise
disjoint single-date histories `{1}`, `{2}`, `{3}`: after the first two
are inner-merged the table has zero rows, so `prices.empty` is true
again and the third symbol *replaces* the table instead of being merged.
The final table is nonempty (one row, date 3, only the third symbol),
although the intersection over all non-empty symbols is empty — the
pipeline continues instead of terminating fatally, and the final date
set is not the claimed intersection. -/
theorem c4_combine_restart_eval :
    (combine_prices [[(1, Cell.num 1)], [(2, Cell.num 1)], [(3, Cell.num 1)]]).rows =
        [(3, [Cell.num 1])] ∧
      interNonEmpty [[(1, Cell.num 1)], [(2, Cell.num 1)], [(3, Cell.num 1)]] = [] ∧
      (combine_prices [[(1, Cell.num 1)], [(2, Cell.num 1)], [(3, Cell.num 1)]]).isEmpty =
        false := by
  refine ⟨by with_unfolding_all decide, by with_unfolding_all decide,
    by with_unfolding_all decide⟩

section DictLemmas

/-- Lookup on a cons cell. -/
lemma dlookup_cons {α : Type} (pk : String) (pv : α) (t : List (String × α)) (k : String) :
    dlookup ((pk, pv) :: t) k = if pk = k then some pv else dlookup t k := by
  unfold dlookup
  by_cases h : pk = k
  · simp [List.find?, h]
  · simp [List.find?, h]

/-- Unfolding insert-or-update when the head key matches. -/
lemma upsertD_cons_eq {α : Type} (pk : String) (pv : α) (t : List (String × α))
    (k' : String) (v : α) (h : pk = k') :
    upsertD ((pk, pv) :: t) k' v = (k', v) :: t := by
  simp [upsertD, h]

/-- Unfolding insert-or-update when the head key differs. -/
lemma upsertD_cons_ne {α : Type} (pk : String) (pv : α) (t : List (String × α))
    (k' : String) (v : α) (h : ¬ pk = k') :
    upsertD ((pk, pv) :: t) k' v = (pk, pv) :: upsertD t k' v := by
  simp [upsertD, h]

/-- Lookup after insert-or-update: the inserted key now maps to the new
value; other keys are unchanged. -/
lemma dlookup_upsert {α : Type} :
    ∀ (acc : List (String × α)) (k k' : String) (v : α),
      dlookup (upsertD acc k' v) k = if k = k' then some v else dlookup acc k := by
  intro acc
  induction acc with
  | nil =>
      intro k k' v
      by_cases h : k = k'
      · subst h
        simp [upsertD, dlookup, List.find?]
      · have h2 : ¬ (k' = k) := fun hh => h hh.symm
        simp [upsertD, dlookup, List.find?, h, h2]
  | cons p t ih =>
      intro k k' v
      obtain ⟨pk, pv⟩ := p
      by_cases h1 : pk = k'
      · rw [upsertD_cons_eq pk pv t k' v h1, dlookup_cons, dlookup_cons]
        subst h1
        by_cases h2 : pk = k
        · rw [if_pos h2, if_pos h2.symm]
        · rw [if_neg h2, if_neg (fun hh : k = pk => h2 hh.symm), if_neg h2]
      · rw [upsertD_cons_ne pk pv t k' v h1, dlookup_cons, dlookup_cons]
        by_cases h2 : pk = k
        · rw [if_pos h2, if_neg (fun hh : k = k' => h1 (h2.trans hh)), if_pos h2]
        · rw [if_neg h2, if_neg h2, ih k k' v]

/-- Key membership after insert-or-update. -/
lemma upsert_keys_mem {α : Type} :
    ∀ (acc : List (String × α)) (k' : String) (v : α) (k : String),
      k ∈ (upsertD acc k' v).map (·.1) ↔ k = k' ∨ k ∈ acc.map (·.1) := by
  intro acc
  induction acc with
  | nil => intro k' v k; simp [upsertD]
  | cons p t ih =>
      intro k' v k
      obtain ⟨pk, pv⟩ := p
      by_cases h1 : pk = k'
      · rw [upsertD_cons_eq pk pv t k' v h1]
        subst h1
        simp only [List.map_cons, List.mem_cons]
        tauto
      · rw [upsertD_cons_ne pk pv t k' v h1]
        simp only [List.map_cons, List.mem_cons, ih]
        tauto

/-- Insert-or-update preserves key uniqueness. -/
lemma upsert_keys_nodup {α : Type} :
    ∀ (acc : List (String × α)) (k' : String) (v : α),
      ((acc.map (·.1)).Nodup) → ((upsertD acc k' v).map (·.1)).Nodup := by
  intro acc
  induction acc with
  | nil => intro k' v _; simp [upsertD]
  | cons p t ih =>
      intro k' v hnd
      obtain ⟨pk, pv⟩ := p
      simp only [List.map_cons, List.nodup_cons] at hnd
      by_cases h1 : pk = k'
      · rw [upsertD_cons_eq pk pv t k' v h1]
        subst h1
        simp only [List.map_cons, List.nodup_cons]
        exact hnd
      · rw [upsertD_cons_ne pk pv t k' v h1]
        simp only [List.map_cons, List.nodup_cons]
        refine ⟨?_, ih k' v hnd.2⟩
        rw [upsert_keys_mem]
        push_neg
        exact ⟨h1, hnd.1⟩

/-- Lookup in the folded dict: the last pair carrying the key wins,
falling back to the accumulator. -/
lemma dlookup_foldl_upsert {α : Type} :
    ∀ (pairs : List (String × α)) (acc : List (String × α)) (k : String),
      dlookup (pairs.foldl (fun a p => upsertD a p.1 p.2) acc) k =
        (match pairs.reverse.find? (fun p => p.1 = k) with
          | some p => some p.2
          | none => dlookup acc k) := by
  intro pairs
  induction pairs with
  | nil => intro acc k; simp
  | cons p t ih =>
      intro acc k
      simp only [List.foldl_cons, List.reverse_cons]
      rw [ih, List.find?_append]
      cases hf : t.reverse.find? (fun q => decide (q.1 = k)) with
      | some q => rfl
      | none =>
          simp only [Option.none_or]
          rw [dlookup_upsert]
          by_cases h : p.1 = k
          · have h2 : k = p.1 := h.symm
            simp [List.find?, h, if_pos h2]
          · have h2 : ¬ (k = p.1) := fun hh => h hh.symm
            simp [List.find?, h, if_neg h2]

/-- Keys of the folded dict: exactly the ids seen plus the
accumulator's keys. -/
lemma keys_foldl_mem {α : Type} :
    ∀ (pairs : List (String × α)) (acc : List (String × α)) (k : String),
      k ∈ ((pairs.foldl (fun a p => upsertD a p.1 p.2) acc).map (·.1)) ↔
        k ∈ pairs.map (·.1) ∨ k ∈ acc.map (·.1) := by
  intro pairs
  induction pairs with
  | nil => intro acc k; simp
  | cons p t ih =>
      intro acc k
      simp only [List.foldl_cons, List.map_cons, List.mem_cons]
      rw [ih, upsert_keys_mem]
      tauto

/-- The folded dict's keys are unique. -/
lemma keys_foldl_nodup {α : Type} :
    ∀ (pairs : List (String × α)) (acc : List (String × α)),
      ((acc.map (·.1)).Nodup) →
        (((pairs.foldl (fun a p => upsertD a p.1 p.2) acc).map (·.1)).Nodup) := by
  intro pairs
  induction pairs with
  | nil => intro acc h; exact h
  | cons p t ih =>
      intro acc h
      exact ih _ (upsert_keys_nodup acc p.1 p.2 h)

/-- Upper bound for a fold of maxima. -/
lemma foldr_max_le (l : List Nat) (n : Nat) (h : ∀ x ∈ l, x ≤ n) :
    l.foldr Nat.max 0 ≤ n := by
  induction l with
  | nil => exact Nat.zero_le n
  | cons x t ih =>
      simp only [List.foldr_cons]
      exact Nat.max_le.mpr ⟨h x (List.mem_cons_self _ _),
        ih (fun y hy => h y (List.mem_cons_of_mem _ hy))⟩

/-- Elements are below the fold of maxima. -/
lemma le_foldr_max (l : List Nat) (x : Nat) (h : x ∈ l) :
    x ≤ l.foldr Nat.max 0 := by
  induction l with
  | nil => cases h
  | cons y t ih =>
      simp only [List.foldr_cons]
      rcases List.mem_cons.mp h with rfl | h'
      · exact Nat.le_max_left _ _
      · exact Nat.le_trans (ih h') (Nat.le_max_right _ _)

/-- An inner merge widens the table by at most one column. -/
lemma ncolsF_mergeInner (acc : PFrame) (s : PSeries) :
    ncolsF (mergeInner acc s) ≤ ncolsF acc + 1 := by
  unfold ncolsF mergeInner
  refine foldr_max_le _ _ ?_
  intro x hx
  obtain ⟨r, hr, rfl⟩ := List.mem_map.mp hx
  obtain ⟨r0, hr0, hmap⟩ := List.mem_filterMap.mp hr
  obtain ⟨c, _, hpair⟩ := Option.map_eq_some'.mp hmap
  rw [← hpair]
  simp only [List.length_append, List.length_cons, List.length_nil]
  have hle : r0.2.length ≤ (acc.rows.map (fun r => r.2.length)).foldr Nat.max 0 :=
    le_foldr_max _ _ (List.mem_map.mpr ⟨r0, hr0, rfl⟩)
  omega

/-- The combined price table has at most one column per processed
series. -/
lemma ncolsF_combine :
    ∀ (dfs : List PSeries) (acc : PFrame),
      ncolsF (dfs.foldl (fun prices df =>
        if df.isEmpty then prices
        else if prices.isEmpty then ⟨df.map (fun r => (r.1, [r.2]))⟩
        else mergeInner prices df) acc) ≤ ncolsF acc + dfs.length := by
  intro dfs
  induction dfs with
  | nil => intro acc; simp
  | cons df t ih =>
      intro acc
      simp only [List.foldl_cons, List.length_cons]
      by_cases h1 : df.isEmpty
      · rw [if_pos h1]
        have := ih acc
        omega
      rw [if_neg h1]
      by_cases h2 : acc.isEmpty
      · rw [if_pos h2]
        have hone : ncolsF ⟨df.map (fun r => (r.1, [r.2]))⟩ ≤ 1 := by
          unfold ncolsF
          refine foldr_max_le _ _ ?_
          intro x hx
          obtain ⟨r, hr, rfl⟩ := List.mem_map.mp hx
          obtain ⟨r0, _, rfl⟩ := List.mem_map.mp hr
          simp
        have := ih (⟨df.map (fun r => (r.1, [r.2]))⟩ : PFrame)
        omega
      · rw [if_neg h2]
        have hm := ncolsF_mergeInner acc df
        have := ih (mergeInner acc df)
        omega

end DictLemmas

/-- C10: `fetch_all_symbols` builds `dict(zip(symbol_ids, results))`, so
for a symbol list with duplicates the mapping has exactly one entry per
distinct identifier — unique keys covering exactly the given ids — and
the value stored under an id is the result of its *last* occurrence;
consequently the combined price table built from the dict's values has
at most one price column per distinct identifier (at most one per dict
entry), not one per list entry. -/
theorem c10_duplicate_symbols (ids : List String) (rs : List PSeries)
    (hlen : rs.length = ids.length) :
    (((dict_zip ids rs).map (·.1)).Nodup) ∧
      (∀ k, k ∈ (dict_zip ids rs).map (·.1) ↔ k ∈ ids) ∧
      (∀ k, dlookup (dict_zip ids rs) k =
        (match (ids.zip rs).reverse.find? (fun p => p.1 = k) with
          | some p => some p.2
          | none => none)) ∧
      ncolsF (combine_prices ((dict_zip ids rs).map (·.2))) ≤
        (dict_zip ids rs).length := by
  refine ⟨?_, ?_, ?_, ?_⟩
  · exact keys_foldl_nodup _ [] (by simp)
  · intro k
    unfold dict_zip
    rw [keys_foldl_mem]
    have hfst : (ids.zip rs).map (·.1) = ids := by
      rw [List.map_fst_zip]
      omega
    simp [hfst]
  · intro k
    unfold dict_zip
    rw [dlookup_foldl_upsert]
    cases (ids.zip rs).reverse.find? (fun p => p.1 = k) with
    | some p => rfl
    | none => rfl
  · have h := ncolsF_combine ((dict_zip ids rs).map (·.2)) ⟨[]⟩
    unfold combine_prices
    have hz : ncolsF ⟨[]⟩ = 0 := rfl
    rw [hz] at h
    simpa using h

/-- C10 witness: the duplicate-handling facts instantiated on the list
`[a, b, a]` — the dict has the two keys `a`, `b` and `a` maps to the
third fetch's result. -/
theorem c10_witness :
    (([( [(1, Cell.num 1)] : PSeries ), [(2, Cell.num 2)], [(3, Cell.num 3)]]).length =
        (["a", "b", "a"] : List String).length) ∧
      dlookup (dict_zip ["a", "b", "a"]
          [[(1, Cell.num 1)], [(2, Cell.num 2)], [(3, Cell.num 3)]]) "a" =
        (match ((["a", "b", "a"] : List String).zip
            [( [(1, Cell.num 1)] : PSeries ), [(2, Cell.num 2)], [(3, Cell.num 3)]]).reverse.find?
              (fun p => p.1 = "a") with
          | some p => some p.2
          | none => none) :=
  ⟨by decide,
    (c10_duplicate_symbols ["a", "b", "a"]
      [[(1, Cell.num 1)], [(2, Cell.num 2)], [(3, Cell.num 3)]] (by decide)).2.2.1 "a"⟩

section ResolverLemmas

/-- The running-max fold inside `extractOne`, named for reasoning. -/
def eoFold (q : String) (t : List String) (b : String × Nat) : String × Nat :=
  t.foldl (fun best c' =>
    let s := token_sort_score q c'
    if best.2 < s then (c', s) else best) b

/-- Characterization of the running-max fold: the result is the seed or
an element with its score, it dominates the seed, and it dominates every
scanned score. -/
lemma eoFold_spec (q : String) :
    ∀ (t : List String) (b : String × Nat),
      (eoFold q t b = b ∨
          ((eoFold q t b).1 ∈ t ∧
            token_sort_score q (eoFold q t b).1 = (eoFold q t b).2)) ∧
        b.2 ≤ (eoFold q t b).2 ∧
        ∀ k ∈ t, token_sort_score q k ≤ (eoFold q t b).2 := by
  intro t
  induction t with
  | nil =>
      intro b
      exact ⟨Or.inl rfl, Nat.le_refl _, by intro k hk; cases hk⟩
  | cons c' t' ih =>
      intro b
      have hstep : eoFold q (c' :: t') b =
          eoFold q t' (if b.2 < token_sort_score q c'
            then (c', token_sort_score q c') else b) := rfl
      by_cases h : b.2 < token_sort_score q c'
      · rw [hstep, if_pos h]
        obtain ⟨h1, h2, h3⟩ := ih (c', token_sort_score q c')
        refine ⟨?_, ?_, ?_⟩
        · rcases h1 with he | hm
          · right
            rw [he]
            exact ⟨List.mem_cons_self _ _, rfl⟩
          · right
            exact ⟨List.mem_cons_of_mem _ hm.1, hm.2⟩
        · exact Nat.le_trans (Nat.le_of_lt h) h2
        · intro k hk
          rcases List.mem_cons.mp hk with rfl | hk'
          · exact h2
          · exact h3 k hk'
      · rw [hstep, if_neg h]
        obtain ⟨h1, h2, h3⟩ := ih b
        refine ⟨?_, h2, ?_⟩
        · rcases h1 with he | hm
          · exact Or.inl he
          · exact Or.inr ⟨List.mem_cons_of_mem _ hm.1, hm.2⟩
        · intro k hk
          rcases List.mem_cons.mp hk with rfl | hk'
          · exact Nat.le_trans (Nat.le_of_not_lt h) h2
          · exact h3 k hk'

/-- On a nonempty choice list, `extractOne` returns a pair. -/
lemma extractOne_isSome (q : String) (keys : List String) (hk : keys ≠ []) :
    ∃ m s, extractOne q keys = some (m, s) := by
  cases keys with
  | nil => exact absurd rfl hk
  | cons c t => exact ⟨(eoFold q t (c, token_sort_score q c)).1,
      (eoFold q t (c, token_sort_score q c)).2, rfl⟩

/-- Inversion for `extractOne`: the returned choice is a member
achieving its returned score, and the score dominates every choice. -/
lemma extractOne_inv (q : String) (keys : List String) (m : String) (s : Nat)
    (h : extractOne q keys = some (m, s)) :
    m ∈ keys ∧ token_sort_score q m = s ∧
      ∀ k ∈ keys, token_sort_score q k ≤ s := by
  cases keys with
  | nil => simp [extractOne] at h
  | cons c t =>
      have he : extractOne q (c :: t) =
          some (eoFold q t (c, token_sort_score q c)) := rfl
      rw [he] at h
      simp only [Option.some.injEq] at h
      obtain ⟨h1, h2, h3⟩ := eoFold_spec q t (c, token_sort_score q c)
      rw [h] at h1 h2 h3
      refine ⟨?_, ?_, ?_⟩
      · rcases h1 with he2 | hm
        · simp only [Prod.mk.injEq] at he2
          rw [he2.1]
          exact List.mem_cons_self _ _
        · exact List.mem_cons_of_mem _ hm.1
      · rcases h1 with he2 | hm
        · simp only [Prod.mk.injEq] at he2
          rw [he2.1, he2.2]
        · exact hm.2
      · intro k hk
        rcases List.mem_cons.mp hk with rfl | hk'
        · exact h2
        · exact h3 k hk'

/-- A present key has an original label. -/
lemma dlookup_of_mem {α : Type} (nc : List (String × α)) (k : String)
    (h : k ∈ nc.map (·.1)) : ∃ v, dlookup nc k = some v := by
  obtain ⟨r, hr, hfst⟩ := List.mem_map.mp h
  unfold dlookup
  cases hfind : nc.find? (fun r => r.1 = k) with
  | some r' => exact ⟨r'.2, rfl⟩
  | none =>
      have := List.find?_eq_none.mp hfind r hr
      simp [hfst] at this

/-- Characterization of the alias loop: the running best only grows; the
final state is the seed or carries a pair (alias, label) achieving the
final score ≥ 80 whose original label it stores; and every alias/label
score that reaches 80 is dominated by the final score. -/
lemma aliasFold_spec (nc : List (String × String)) (hk : nc.map (·.1) ≠ []) :
    ∀ (al : List String) (b : Option String × Nat),
      (b.2 ≤ (al.foldl (aliasStep nc) b).2) ∧
        ((al.foldl (aliasStep nc) b) = b ∨
          (80 ≤ (al.foldl (aliasStep nc) b).2 ∧
            ∃ a ∈ al, ∃ k ∈ nc.map (·.1),
              token_sort_score (normKey a) k = (al.foldl (aliasStep nc) b).2 ∧
                (al.foldl (aliasStep nc) b).1 = dlookup nc k)) ∧
        (∀ a ∈ al, ∀ k ∈ nc.map (·.1),
          80 ≤ token_sort_score (normKey a) k →
            token_sort_score (normKey a) k ≤ (al.foldl (aliasStep nc) b).2) := by
  intro al
  induction al with
  | nil =>
      intro b
      exact ⟨Nat.le_refl _, Or.inl rfl, by intro a ha; cases ha⟩
  | cons a0 t ih =>
      intro b
      have hstep : (a0 :: t).foldl (aliasStep nc) b =
          t.foldl (aliasStep nc) (aliasStep nc b a0) := rfl
      obtain ⟨m, s, heo⟩ := extractOne_isSome (normKey a0) _ hk
      obtain ⟨hmem, hms, hmax⟩ := extractOne_inv _ _ _ _ heo
      have hstep2 : aliasStep nc b a0 =
          if b.2 < s ∧ 80 ≤ s then ((dlookup nc m), s) else b := by
        unfold aliasStep
        rw [heo]
      by_cases hcond : b.2 < s ∧ 80 ≤ s
      · rw [hstep, hstep2, if_pos hcond]
        obtain ⟨gmono, gcase, gmax⟩ := ih ((dlookup nc m), s)
        refine ⟨?_, ?_, ?_⟩
        · exact Nat.le_trans (Nat.le_of_lt hcond.1) gmono
        · right
          refine ⟨Nat.le_trans hcond.2 gmono, ?_⟩
          rcases gcase with he | hbig
          · refine ⟨a0, List.mem_cons_self _ _, m, hmem, ?_, ?_⟩
            · rw [he]
              exact hms
            · rw [he]
          · obtain ⟨_, a', ha', k, hkmem, hsc, hco⟩ := hbig
            exact ⟨a', List.mem_cons_of_mem _ ha', k, hkmem, hsc, hco⟩
        · intro a ha k hkm h80
          rcases List.mem_cons.mp ha with rfl | ha'
          · exact Nat.le_trans (hmax k hkm) gmono
          · exact gmax a ha' k hkm h80
      · rw [hstep, hstep2, if_neg hcond]
        obtain ⟨gmono, gcase, gmax⟩ := ih b
        refine ⟨gmono, ?_, ?_⟩
        · rcases gcase with he | hbig
          · exact Or.inl he
          · obtain ⟨h80, a', ha', k, hkmem, hsc, hco⟩ := hbig
            exact Or.inr ⟨h80, a', List.mem_cons_of_mem _ ha', k, hkmem, hsc, hco⟩
        · intro a ha k hkm h80
          rcases List.mem_cons.mp ha with rfl | ha'
          · have h80s : 80 ≤ s := Nat.le_trans h80 (hmax k hkm)
            have hnl : ¬ b.2 < s := fun hl => hcond ⟨hl, h80s⟩
            exact Nat.le_trans (hmax k hkm) (Nat.le_trans (Nat.le_of_not_lt hnl) gmono)
          · exact gmax a ha' k hkm h80

/-- The all-fields resolution loop is absorbing once failed. -/
lemma resolve_all_absorb (nc : List (String × String)) :
    ∀ t : List (String × List String),
      t.foldl (fun acc f =>
        match acc with
        | none => none
        | some m =>
            match resolveField f.1 f.2 nc with
            | none => none
            | some r => some (m ++ [(f.1, r.1)])) none = none := by
  intro t
  induction t with
  | nil => rfl
  | cons f t' ih => exact ih

/-- Resolution over all required fields fails exactly when some field
fails. -/
lemma resolve_all_none_iff (required : List (String × List String))
    (nc : List (String × String)) :
    resolve_all required nc = none ↔
      ∃ f ∈ required, resolveField f.1 f.2 nc = none := by
  unfold resolve_all
  suffices h : ∀ (t : List (String × List String)) (m : List (String × String)),
      (t.foldl (fun acc f =>
        match acc with
        | none => none
        | some m =>
            match resolveField f.1 f.2 nc with
            | none => none
            | some r => some (m ++ [(f.1, r.1)])) (some m) = none ↔
        ∃ f ∈ t, resolveField f.1 f.2 nc = none) by
    exact h required []
  intro t
  induction t with
  | nil =>
      intro m
      simp
  | cons f t' ih =>
      intro m
      simp only [List.foldl_cons]
      cases hrf : resolveField f.1 f.2 nc with
      | none =>
          simp only [resolve_all_absorb nc t']
          constructor
          · intro _
            exact ⟨f, List.mem_cons_self _ _, hrf⟩
          · intro _
            trivial
      | some r =>
          rw [ih (m ++ [(f.1, r.1)])]
          constructor
          · rintro ⟨f', hf', hn⟩
            exact ⟨f', List.mem_cons_of_mem _ hf', hn⟩
          · rintro ⟨f', hf', hn⟩
            rcases List.mem_cons.mp hf' with rfl | hf''
            · rw [hrf] at hn
              cases hn
            · exact ⟨f', hf'', hn⟩

end ResolverLemmas

/-- C5: `SchemaResolver`'s two-phase algorithm, characterized.  With a
nonempty label set: resolution fails exactly when no label reaches 80
against the field name and no alias/label pair reaches 80; when some
label reaches 80 against the field name itself, a best-scoring label is
accepted with that score (phase 1); otherwise any accepted result is an
alias/label pair scoring at least 80 and dominating all alias/label
scores (phase 2).  At dataset level, `resolve_all` fails (the empty
marker, no partial schema) exactly when some required field fails. -/
theorem c5_schema_resolution (field : String) (aliases : List String)
    (nc : List (String × String)) (required : List (String × List String))
    (hk : nc.map (·.1) ≠ []) :
    (resolveField field aliases nc = none ↔
        ((∀ k ∈ nc.map (·.1), token_sort_score field k < 80) ∧
          (∀ a ∈ aliases, ∀ k ∈ nc.map (·.1),
            token_sort_score (normKey a) k < 80))) ∧
      ((∃ k0 ∈ nc.map (·.1), 80 ≤ token_sort_score field k0) →
        ∃ k ∈ nc.map (·.1),
          resolveField field aliases nc =
              some ((dlookup nc k).getD "", token_sort_score field k) ∧
            ∀ k' ∈ nc.map (·.1),
              token_sort_score field k' ≤ token_sort_score field k) ∧
      ((∀ k ∈ nc.map (·.1), token_sort_score field k < 80) →
        ∀ m s, resolveField field aliases nc = some (m, s) →
          80 ≤ s ∧
            (∃ a ∈ aliases, ∃ k ∈ nc.map (·.1),
              token_sort_score (normKey a) k = s ∧ dlookup nc k = some m) ∧
            (∀ a ∈ aliases, ∀ k ∈ nc.map (·.1),
              token_sort_score (normKey a) k ≤ s)) ∧
      (resolve_all required nc = none ↔
        ∃ f ∈ required, resolveField f.1 f.2 nc = none) := by
  obtain ⟨m0, s0, heo⟩ := extractOne_isSome field _ hk
  obtain ⟨hm0, hs0, hmax0⟩ := extractOne_inv _ _ _ _ heo
  have hrf : resolveField field aliases nc =
      (if 80 ≤ s0 then some ((dlookup nc m0).getD "", s0)
        else
          match (aliases.foldl (aliasStep nc) ((none : Option String), 0)).1 with
          | some c => some (c, (aliases.foldl (aliasStep nc) ((none : Option String), 0)).2)
          | none => none) := by
    unfold resolveField
    rw [heo]
  by_cases h80 : 80 ≤ s0
  · rw [if_pos h80] at hrf
    refine ⟨?_, ?_, ?_, resolve_all_none_iff required nc⟩
    · constructor
      · intro hn
        rw [hrf] at hn
        cases hn
      · rintro ⟨hall, _⟩
        have := hall m0 hm0
        rw [hs0] at this
        omega
    · intro _
      refine ⟨m0, hm0, ?_, ?_⟩
      · rw [hrf, hs0]
      · intro k' hk'
        have := hmax0 k' hk'
        omega
    · intro hlt
      have := hlt m0 hm0
      rw [hs0] at this
      omega
  · rw [if_neg h80] at hrf
    have hlt0 : ∀ k ∈ nc.map (·.1), token_sort_score field k < 80 := by
      intro k hkk
      have := hmax0 k hkk
      omega
    obtain ⟨gmono, gcase, gmax⟩ := aliasFold_spec nc hk aliases ((none : Option String), 0)
    rcases gcase with he | hbig
    · have h1 : (aliases.foldl (aliasStep nc) ((none : Option String), 0)).1 = none := by
        rw [he]
      have hres : resolveField field aliases nc = none := by
        rw [hrf, h1]
      have haliaslt : ∀ a ∈ aliases, ∀ k ∈ nc.map (·.1),
          token_sort_score (normKey a) k < 80 := by
        intro a ha k hkk
        by_contra hge
        push_neg at hge
        have := gmax a ha k hkk hge
        rw [he] at this
        omega
      refine ⟨?_, ?_, ?_, resolve_all_none_iff required nc⟩
      · exact ⟨fun _ => ⟨hlt0, haliaslt⟩, fun _ => hres⟩
      · rintro ⟨k0, hk0, h80k⟩
        have := hlt0 k0 hk0
        omega
      · intro _ m s hsome
        rw [hres] at hsome
        cases hsome
    · obtain ⟨hfold80, a', ha', k', hk', hsc', hcol'⟩ := hbig
      obtain ⟨v, hv⟩ := dlookup_of_mem nc k' hk'
      have h1 : (aliases.foldl (aliasStep nc) ((none : Option String), 0)).1 = some v := by
        rw [hcol', hv]
      have hres : resolveField field aliases nc =
          some (v, (aliases.foldl (aliasStep nc) ((none : Option String), 0)).2) := by
        rw [hrf, h1]
      refine ⟨?_, ?_, ?_, resolve_all_none_iff required nc⟩
      · constructor
        · intro hn
          rw [hres] at hn
          cases hn
        · rintro ⟨_, haliaslt⟩
          have := haliaslt a' ha' k' hk'
          rw [hsc'] at this
          omega
      · rintro ⟨k0, hk0, h80k⟩
        have := hlt0 k0 hk0
        omega
      · intro _ m s hsome
        rw [hres] at hsome
        simp only [Option.some.injEq, Prod.mk.injEq] at hsome
        obtain ⟨rfl, rfl⟩ := hsome
        refine ⟨hfold80, ⟨a', ha', k', hk', hsc', by rw [hv]⟩, ?_⟩
        intro a ha k hkk
        by_cases hge : 80 ≤ token_sort_score (normKey a) k
        · exact gmax a ha k hkk hge
        · push_neg at hge
          omega

/-- C5 witness: the resolver characterization instantiated on a
one-column table whose label is exactly the field name. -/
theorem c5_witness :
    ((normCols ["date"]).map (·.1) ≠ []) ∧
      (resolve_all [("date", dateAliases)] (normCols ["date"]) = none ↔
        ∃ f ∈ [("date", dateAliases)],
          resolveField f.1 f.2 (normCols ["date"]) = none) :=
  ⟨by decide,
    (c5_schema_resolution "date" dateAliases (normCols ["date"])
      [("date", dateAliases)] (by decide)).2.2.2⟩

/-- C6 (amended): an exact case-insensitive alias match scores 100, but
it is only guaranteed to be chosen when phase 1 does not fire first: if
no observed label reaches 80 against the field name itself, and the
exactly-matching pair is the unique alias/label pair scoring 100, then
resolution succeeds with score 100 and chooses the exactly-matching
column. -/
theorem c6_exact_alias_amended (field : String) (aliases : List String)
    (nc : List (String × String)) (a0 k0 origc : String)
    (hk : nc.map (·.1) ≠ [])
    (ha0 : a0 ∈ aliases) (hk0 : k0 ∈ nc.map (·.1))
    (h100 : token_sort_score (normKey a0) k0 = 100)
    (horig : dlookup nc k0 = some origc)
    (hph1 : ∀ k ∈ nc.map (·.1), token_sort_score field k < 80)
    (huniq : ∀ a ∈ aliases, ∀ k ∈ nc.map (·.1),
      ¬(a = a0 ∧ k = k0) → token_sort_score (normKey a) k < 100) :
    resolveField field aliases nc = some (origc, 100) := by
  obtain ⟨m0, s0, heo⟩ := extractOne_isSome field _ hk
  obtain ⟨hm0, hs0, hmax0⟩ := extractOne_inv _ _ _ _ heo
  have h80 : ¬ 80 ≤ s0 := by
    have := hph1 m0 hm0
    rw [hs0] at this
    omega
  have hrf : resolveField field aliases nc =
      (if 80 ≤ s0 then some ((dlookup nc m0).getD "", s0)
        else
          match (aliases.foldl (aliasStep nc) ((none : Option String), 0)).1 with
          | some c => some (c, (aliases.foldl (aliasStep nc) ((none : Option String), 0)).2)
          | none => none) := by
    unfold resolveField
    rw [heo]
  rw [if_neg h80] at hrf
  obtain ⟨gmono, gcase, gmax⟩ := aliasFold_spec nc hk aliases ((none : Option String), 0)
  have hge100 : 100 ≤ (aliases.foldl (aliasStep nc) ((none : Option String), 0)).2 := by
    have := gmax a0 ha0 k0 hk0 (by rw [h100]; omega)
    rw [h100] at this
    exact this
  rcases gcase with he | hbig
  · exfalso
    rw [he] at hge100
    have : (100 : Nat) ≤ 0 := hge100
    omega
  · obtain ⟨hfold80, a', ha', k', hk', hsc', hcol'⟩ := hbig
    by_cases hpair : a' = a0 ∧ k' = k0
    · obtain ⟨rfl, rfl⟩ := hpair
      have hf2 : (aliases.foldl (aliasStep nc) ((none : Option String), 0)).2 = 100 := by
        rw [← hsc', h100]
      have h1 : (aliases.foldl (aliasStep nc) ((none : Option String), 0)).1 =
          some origc := by
        rw [hcol', horig]
      rw [hrf, h1, hf2]
    · exfalso
      have := huniq a' ha' k' hk' hpair
      rw [hsc'] at this
      omega

set_option maxRecDepth 400000 in
/-- C6 counterexample: for the field `date`, the observed labels
`Datte` and `Gregorian Date` contain an exact case-insensitive match to
the alias `Gregorian Date`; yet phase 1 fires first — `datte` scores 89
against the field name — so the decoy `Datte` is chosen with score 89,
not the exactly-matching column with score 100. -/
theorem c6_counterexample :
    resolveField "date" dateAliases (normCols ["Datte", "Gregorian Date"]) =
        some ("Datte", 89) ∧
      "Gregorian Date" ∈ dateAliases ∧
      normKey "Gregorian Date" ∈ (normCols ["Datte", "Gregorian Date"]).map (·.1) ∧
      resolveField "date" dateAliases (normCols ["Datte", "Gregorian Date"]) ≠
        some ("Gregorian Date", 100) := by
  have h : resolveField "date" dateAliases (normCols ["Datte", "Gregorian Date"]) =
      some ("Datte", 89) := by decide
  refine ⟨h, by decide, by decide, ?_⟩
  rw [h]
  decide

set_option maxRecDepth 400000 in
/-- C6 witness: the amended statement instantiated on the field
`market_cap` with labels `Price` and `Something` — `price` is an exact
case-insensitive match to the alias `price`, phase 1 stays below 80, and
the exact pair is the unique 100-scorer, so `Price` is chosen with
score 100. -/
theorem c6_witness :
    token_sort_score (normKey "price") "price" = 100 ∧
      (∀ k ∈ (normCols ["Price", "Something"]).map (·.1),
        token_sort_score "market_cap" k < 80) ∧
      resolveField "market_cap" marketCapAliases (normCols ["Price", "Something"]) =
        some ("Price", 100) :=
  ⟨by decide, by decide,
    c6_exact_alias_amended "market_cap" marketCapAliases
      (normCols ["Price", "Something"]) "price" "price" "Price"
      (by decide) (by decide) (by decide) (by decide)
      (by decide) (by decide) (by decide)⟩

section LoaderLemmas

/-- Membership through stable insertion. -/
lemma insByDate_mem {α : Type} (x z : Nat × α) :
    ∀ l : List (Nat × α), z ∈ insByDate x l ↔ z = x ∨ z ∈ l := by
  intro l
  induction l with
  | nil => simp [insByDate]
  | cons y t ih =>
      rw [insByDate]
      by_cases h : x.1 < y.1
      · rw [if_pos h]
        exact List.mem_cons
      · rw [if_neg h, List.mem_cons, ih, List.mem_cons]
        tauto

/-- Stable insertion preserves sortedness by date. -/
lemma insByDate_sorted {α : Type} (x : Nat × α) :
    ∀ l : List (Nat × α), l.Pairwise (fun a b => a.1 ≤ b.1) →
      (insByDate x l).Pairwise (fun a b => a.1 ≤ b.1) := by
  intro l
  induction l with
  | nil => intro _; simp [insByDate]
  | cons y t ih =>
      intro hp
      rw [List.pairwise_cons] at hp
      by_cases h : x.1 < y.1
      · rw [insByDate, if_pos h, List.pairwise_cons]
        refine ⟨?_, List.pairwise_cons.mpr hp⟩
        intro z hz
        rcases List.mem_cons.mp hz with rfl | hz'
        · exact Nat.le_of_lt h
        · exact Nat.le_trans (Nat.le_of_lt h) (hp.1 z hz')
      · rw [insByDate, if_neg h, List.pairwise_cons]
        refine ⟨?_, ih hp.2⟩
        intro z hz
        rcases (insByDate_mem x z t).mp hz with rfl | hz'
        · exact Nat.le_of_not_lt h
        · exact hp.1 z hz'

/-- The insertion-sort fold sorts by date. -/
lemma sortByDate_sorted {α : Type} :
    ∀ (l acc : List (Nat × α)), acc.Pairwise (fun a b => a.1 ≤ b.1) →
      (l.foldl (fun acc x => insByDate x acc) acc).Pairwise (fun a b => a.1 ≤ b.1) := by
  intro l
  induction l with
  | nil => intro acc h; exact h
  | cons x t ih =>
      intro acc h
      exact ih _ (insByDate_sorted x acc h)

/-- Membership through the sort. -/
lemma sortByDate_mem {α : Type} (z : Nat × α) :
    ∀ (l acc : List (Nat × α)),
      (z ∈ l.foldl (fun acc x => insByDate x acc) acc ↔ z ∈ l ∨ z ∈ acc) := by
  intro l
  induction l with
  | nil => intro acc; simp
  | cons x t ih =>
      intro acc
      simp only [List.foldl_cons, List.mem_cons]
      rw [ih, insByDate_mem]
      tauto

/-- The keep-first de-duplication fold appends a sublist of its input to
the accumulator. -/
lemma dedup_split {α : Type} :
    ∀ (l acc : List (Nat × α)),
      ∃ m, (l.foldl (fun acc x =>
          if acc.any (fun y => y.1 = x.1) then acc else acc ++ [x]) acc) = acc ++ m ∧
        m.Sublist l := by
  intro l
  induction l with
  | nil => intro acc; exact ⟨[], by simp, List.nil_sublist _⟩
  | cons x t ih =>
      intro acc
      simp only [List.foldl_cons]
      by_cases h : acc.any (fun y => y.1 = x.1)
      · rw [if_pos h]
        obtain ⟨m, hm, hs⟩ := ih acc
        exact ⟨m, hm, hs.trans (List.sublist_cons_self x t)⟩
      · rw [if_neg h]
        obtain ⟨m, hm, hs⟩ := ih (acc ++ [x])
        refine ⟨x :: m, ?_, List.Sublist.cons₂ x hs⟩
        rw [hm, List.append_assoc]
        rfl

/-- The de-duplicated list is a sublist of its input. -/
lemma dedupByDate_sublist {α : Type} (l : List (Nat × α)) :
    (dedupByDate l).Sublist l := by
  obtain ⟨m, hm, hs⟩ := dedup_split l []
  unfold dedupByDate
  rw [hm]
  simpa using hs

/-- After keep-first de-duplication no two rows share a date. -/
lemma dedupByDate_nodup {α : Type} :
    ∀ (l acc : List (Nat × α)), ((acc.map (·.1)).Nodup) →
      (((l.foldl (fun acc x =>
        if acc.any (fun y => y.1 = x.1) then acc else acc ++ [x]) acc).map (·.1)).Nodup) := by
  intro l
  induction l with
  | nil => intro acc h; exact h
  | cons x t ih =>
      intro acc h
      simp only [List.foldl_cons]
      by_cases hseen : acc.any (fun y => y.1 = x.1)
      · rw [if_pos hseen]
        exact ih acc h
      · rw [if_neg hseen]
        refine ih _ ?_
        rw [List.map_append, List.nodup_append]
        refine ⟨h, by simp, ?_⟩
        intro a ha hb
        simp only [List.map_cons, List.map_nil, List.mem_singleton] at hb
        rw [List.any_eq_true] at hseen
        push_neg at hseen
        obtain ⟨r, hr, rfl⟩ := List.mem_map.mp ha
        have := hseen r hr
        rw [hb] at this
        simp at this

end LoaderLemmas

/-- Keys surviving the value-coercion drop form a sublist of the keys
before it. -/
lemma filterMapV_fst_sublist {α : Type} :
    ∀ l : List (Nat × Option α),
      (((l.filterMap (fun r => (r.2).map (fun v => (r.1, (v : α))))).map
          (fun x : Nat × α => x.1)).Sublist (l.map (·.1))) := by
  intro l
  induction l with
  | nil => exact List.Sublist.refl []
  | cons r t ih =>
      obtain ⟨d, ov⟩ := r
      cases ov with
      | none =>
          simp only [List.filterMap_cons, Option.map_none', List.map_cons]
          exact ih.trans (List.sublist_cons_self d _)
      | some v =>
          simp only [List.filterMap_cons, Option.map_some', List.map_cons]
          exact List.Sublist.cons₂ d ih

/-- C7 (amended): the loader drops rows with unparseable dates, sorts by
date, de-duplicates keeping the first occurrence, and only *afterwards*
coerces the value field and drops rows whose value fails to parse.
Consequently no two surviving rows share a date, the survivors are
date-sorted, and every survivor comes from an input row whose date and
value both parsed — but a date whose first post-sort occurrence carries
an unparseable value is lost entirely rather than falling back to a
later duplicate. -/
theorem c7_loader_order (t : List (Option Nat × Option Rat)) :
    ((load_process_code t).map (·.1)).Nodup ∧
      (load_process_code t).Pairwise (fun a b => a.1 ≤ b.1) ∧
      (∀ r ∈ load_process_code t, (some r.1, some r.2) ∈ t) := by
  have hcode : load_process_code t =
      (dedupByDate (sortByDate (t.filterMap
        (fun r => r.1.map (fun d => (d, r.2)))))).filterMap
          (fun r => r.2.map (fun v => (r.1, v))) := rfl
  have hdnod : ((dedupByDate (sortByDate (t.filterMap
      (fun r => r.1.map (fun d => (d, r.2)))))).map (·.1)).Nodup :=
    dedupByDate_nodup _ [] (by simp)
  have hsort : (sortByDate (t.filterMap
      (fun r => r.1.map (fun d => (d, r.2))))).Pairwise (fun a b => a.1 ≤ b.1) :=
    sortByDate_sorted _ [] (by simp)
  have hdsort : (dedupByDate (sortByDate (t.filterMap
      (fun r => r.1.map (fun d => (d, r.2)))))).Pairwise (fun a b => a.1 ≤ b.1) :=
    List.Pairwise.sublist (dedupByDate_sublist _) hsort
  refine ⟨?_, ?_, ?_⟩
  · rw [hcode]
    exact List.Nodup.sublist (filterMapV_fst_sublist _) hdnod
  · rw [hcode]
    have h1 : ((dedupByDate (sortByDate (t.filterMap
        (fun r => r.1.map (fun d => (d, r.2)))))).map (·.1)).Pairwise (· ≤ ·) :=
      (List.pairwise_map).mpr hdsort
    have h2 := List.Pairwise.sublist (filterMapV_fst_sublist _) h1
    exact (List.pairwise_map).mp h2
  · intro r hr
    rw [hcode] at hr
    obtain ⟨r3, hr3, hmap⟩ := List.mem_filterMap.mp hr
    obtain ⟨v, hv, hpair⟩ := Option.map_eq_some'.mp hmap
    have hr3' : r3 ∈ sortByDate (t.filterMap (fun r => r.1.map (fun d => (d, r.2)))) :=
      (dedupByDate_sublist _).subset hr3
    have hr3'' : r3 ∈ t.filterMap (fun r => r.1.map (fun d => (d, r.2))) := by
      have := (sortByDate_mem r3 _ []).mp hr3'
      simpa using this
    obtain ⟨row, hrow, hmap2⟩ := List.mem_filterMap.mp hr3''
    obtain ⟨d, hd, hpair2⟩ := Option.map_eq_some'.mp hmap2
    have h1 : row.1 = some r.1 := by
      rw [hd, ← hpair]
      rw [← hpair2]
    have h2 : row.2 = some r.2 := by
      have : row.2 = r3.2 := by rw [← hpair2]
      rw [this, hv, ← hpair]
    have : row = (some r.1, some r.2) := by
      rw [← h1, ← h2]
    rw [← this]
    exact hrow

set_option maxRecDepth 10000 in
/-- C7 counterexample: two rows sharing date 5, the first (post-stable-
sort) with an unparseable value.  The script de-duplicates before value
coercion and keeps the bad-value row, then drops it — the date vanishes.
The claimed order (drop unparseable rows first, then de-duplicate) keeps
the good-value row instead. -/
theorem c7_counterexample :
    load_process_code [(some 5, none), (some 5, some 1)] = [] ∧
      load_process_claim [(some 5, none), (some 5, some 1)] = [(5, 1)] ∧
      load_process_code [(some 5, none), (some 5, some 1)] ≠
        load_process_claim [(some 5, none), (some 5, some 1)] := by
  refine ⟨by with_unfolding_all decide, by with_unfolding_all decide,
    by with_unfolding_all decide⟩

/-- C9: component boundaries return explicit failure markers and `main`
turns them into a failure exit status.  A raised fetch interaction gives
the empty frame, a raised file read gives the `None`-marker; a failed
load, an empty combined price table, or a failed `process_data` are
exactly the conditions making the driver terminate with exit status 1
(the logged-error-then-`sys.exit(1)` paths of lines 293–295, 685–687 and
727–729), and otherwise the run completes with the split — no other
outcome exists. -/
theorem c9_component_boundaries :
    (∀ e : String, fetch_daily_history (.error e) = []) ∧
      (∀ (e : String) (required : List (String × List String)),
        load_data_outcome (.error e) required = none) ∧
      (∀ (market rfr mcap usd : Option PSeries) (fetched : List PSeries),
        (market = none ∨ rfr = none ∨ mcap = none ∨ usd = none) →
          main_driver market rfr mcap usd fetched = .exited 1) ∧
      (∀ (m r c u : PSeries) (fetched : List PSeries),
        main_driver (some m) (some r) (some c) (some u) fetched = .exited 1 ↔
          ((combine_prices fetched).isEmpty = true ∨
            process_data ⟨sortByDate (combine_prices fetched).rows⟩ m r c u = none)) ∧
      (∀ (m r c u : PSeries) (fetched : List PSeries)
          (s : PFrame × PFrame × PFrame × PFrame),
        main_driver (some m) (some r) (some c) (some u) fetched = .completed s ↔
          ((combine_prices fetched).isEmpty = false ∧
            process_data ⟨sortByDate (combine_prices fetched).rows⟩ m r c u = some s)) := by
  refine ⟨fun e => rfl, fun e required => rfl, ?_, ?_, ?_⟩
  · intro market rfr mcap usd fetched h
    cases market with
    | none => rfl
    | some m =>
        cases rfr with
        | none => rfl
        | some r =>
            cases mcap with
            | none => rfl
            | some c =>
                cases usd with
                | none => rfl
                | some u => rcases h with h | h | h | h <;> simp at h
  · intro m r c u fetched
    simp only [main_driver]
    by_cases hemp : (combine_prices fetched).isEmpty
    · rw [if_pos hemp]
      simp [hemp]
    · rw [if_neg hemp]
      cases hpd : process_data ⟨sortByDate (combine_prices fetched).rows⟩ m r c u with
      | none => simp [hpd, hemp]
      | some s => simp [hpd, hemp]
  · intro m r c u fetched s
    simp only [main_driver]
    by_cases hemp : (combine_prices fetched).isEmpty
    · rw [if_pos hemp]
      simp [hemp]
    · rw [if_neg hemp]
      cases hpd : process_data ⟨sortByDate (combine_prices fetched).rows⟩ m r c u with
      | none => simp [hpd, hemp]
      | some s' => simp [hpd, hemp]

/-- C9 witness: a failed market-data load (the `None` marker) makes the
driver exit with status 1. -/
theorem c9_witness :
    ((none : Option PSeries) = none ∨ (some ([] : PSeries)) = none ∨
        (some ([] : PSeries)) = none ∨ (some ([] : PSeries)) = none) ∧
      main_driver none (some []) (some []) (some []) [] = .exited 1 :=
  ⟨Or.inl rfl,
    c9_component_boundaries.2.2.1 none (some []) (some []) (some []) [] (Or.inl rfl)⟩

/-- C7 witness: the loader invariants instantiated on a concrete raw
table with an out-of-order row and an unparseable date. -/
theorem c7_witness :
    ((load_process_code [(some 2, some 7), (some 1, some 3), (none, some 4)]).map
        (·.1)).Nodup ∧
      (load_process_code [(some 2, some 7), (some 1, some 3), (none, some 4)]).Pairwise
        (fun a b => a.1 ≤ b.1) :=
  ⟨(c7_loader_order [(some 2, some 7), (some 1, some 3), (none, some 4)]).1,
    (c7_loader_order [(some 2, some 7), (some 1, some 3), (none, some 4)]).2.1⟩
